import Mathlib

set_option maxRecDepth 20000

/-!
Verification of the sparse repodata loader
(`crates/rattler_repodata_gateway/src/sparse/mod.rs`).

The Rust code is shallowly embedded: strings are Lean `String`s (compared
through their character lists, which for valid UTF-8 agrees with Rust's
byte-lexicographic `str::cmp`), JSON documents are a `Json` inductive,
fallible code returns `Except`/`Outcome`, and the `io::Result`-with-`expect`
error channel of record materialization is an `Outcome` with a distinguished
`fatal` constructor for panics.
-/

/-- Lexicographic comparison of character lists by unicode scalar value.
This is the model of Rust `str::cmp`: for valid UTF-8, byte-lexicographic
order coincides with scalar-value-lexicographic order. -/
def cmpChars : List Char → List Char → Ordering
  | [], [] => .eq
  | [], _ :: _ => .lt
  | _ :: _, [] => .gt
  | a :: as, b :: bs =>
    if a < b then .lt
    else if b < a then .gt
    else cmpChars as bs

/-- String comparison via `cmpChars`, the model of `str::cmp` on `String`. -/
def strCmp (a b : String) : Ordering :=
  cmpChars a.toList b.toList

/-- Numeric rank of an `Ordering`, used to state that comparison against a
fixed target is monotone along a sorted sequence. -/
def ordRank : Ordering → Nat
  | .lt => 0
  | .eq => 1
  | .gt => 2

/-- Split a character list at the first occurrence of `c`: returns the part
before the first `c` and, if `c` occurs, the part after it. -/
def breakAtChar (c : Char) : List Char → List Char × Option (List Char)
  | [] => ([], none)
  | x :: xs =>
    if x = c then ([], some xs)
    else
      let r := breakAtChar c xs
      (x :: r.1, r.2)

/-- Unlimited split on a separator character (the model of Rust
`str::split`); always returns at least one piece. -/
def splitAll (c : Char) : List Char → List (List Char)
  | [] => [[]]
  | x :: xs =>
    match splitAll c xs with
    | [] => [[]]
    | p :: ps => if x = c then [] :: p :: ps else (x :: p) :: ps

/-- Left-to-right split limited to at most `n` pieces (the model of Rust
`str::splitn`): the last piece holds the unsplit remainder. -/
def splitn (c : Char) : Nat → List Char → List (List Char)
  | 0, _ => []
  | 1, s => [s]
  | n + 2, s =>
    match breakAtChar c s with
    | (_, none) => [s]
    | (pre, some rest) => pre :: splitn c (n + 1) rest

/-- Right-to-left split limited to at most `n` pieces (the model of Rust
`str::rsplitn`): pieces are produced starting from the right end. -/
def rsplitn (c : Char) (n : Nat) (s : List Char) : List (List Char) :=
  (splitn c n s.reverse).map List.reverse

/-- A filename key of the `packages` / `packages.conda` maps together with
the package name derived from it (model of `PackageFilename` in
`sparse/mod.rs`). -/
structure PackageFilename where
  package : String
  filename : String
  deriving DecidableEq, Repr

/-- Model of `TryFrom<&str> for PackageFilename`
(`sparse/mod.rs` lines 372-382): the package name is
`s.rsplitn(3, '-').nth(2)`, i.e. everything before the last two
`-`-separated fields, and the parse fails when that third-from-the-right
piece does not exist. -/
def PackageFilename.tryFrom (s : String) : Except String PackageFilename :=
  match (rsplitn '-' 3 s.toList)[2]? with
  | some p => .ok ⟨String.mk p, s⟩
  | none => .error "invalid filename"

/-- JSON documents. Raw record values are kept as uninterpreted `Json`
values, the model of the byte-slice `&RawValue` views of the shallow pass
(syntactic well-formedness of the value is implied by shallow parsing, as
`serde_json` validates the span of a `RawValue`). -/
inductive Json where
  | null
  | bool (b : Bool)
  | num (n : Int)
  | str (s : String)
  | arr (elems : List Json)
  | obj (fields : List (String × Json))

instance : Inhabited Json := ⟨Json.null⟩

/-- Look up the value of a key in a JSON object field list. -/
def jLookup (k : String) (fields : List (String × Json)) : Option Json :=
  (fields.find? (fun kv => kv.1 = k)).map (fun kv => kv.2)

/-- Modelled from the spec: the channel base URL is supplied by the external
`url` crate; the only behavior the loader depends on is that `Url::join`
fails exactly on URLs that cannot be a base, and otherwise appends the
path segment. -/
structure Url where
  cannotBeABase : Bool
  text : String
  deriving DecidableEq, Repr

/-- Modelled from the spec: `Url::join` of the external `url` crate; fails
iff the base URL cannot be a base. -/
def Url.join (u : Url) (s : String) : Option Url :=
  if u.cannotBeABase then none else some ⟨false, u.text ++ s⟩

/-- Modelled from the spec: the external `Channel` collaborator, exposing
`base_url` and `canonical_name()`. -/
structure Channel where
  base_url : Url
  name : String
  deriving DecidableEq, Repr

/-- Modelled from the spec: `Channel::canonical_name()`. -/
def Channel.canonical_name (c : Channel) : String :=
  c.name

/-- Modelled from the spec: the channel `info` block of a repodata document,
carrying an optional `base_url` string. -/
structure ChannelInfo where
  base_url : Option String
  deriving DecidableEq, Repr

/-- Modelled from the spec: the external opaque `PackageName`, equal iff the
normalized forms are equal. -/
structure PackageName where
  normalized : String
  deriving DecidableEq, Repr

/-- Modelled from the spec: `PackageName::new_unchecked` wraps a string with
no validation. -/
def PackageName.new_unchecked (s : String) : PackageName :=
  ⟨s⟩

/-- Modelled from the spec: `PackageName::as_normalized`. -/
def PackageName.as_normalized (n : PackageName) : String :=
  n.normalized

/-- Modelled from the spec: the external `PackageRecord` schema, restricted
to the fields the loader reads or writes (`name`, `version`, `build`,
`subdir` — possibly empty — and `depends`). -/
structure PackageRecord where
  name : String
  version : String
  build : String
  subdir : String
  depends : List String
  deriving DecidableEq, Repr

/-- Parse a JSON array of strings (the `depends` field). -/
def parseStringList : List Json → Option (List String)
  | [] => some []
  | .str s :: rest =>
    match parseStringList rest with
    | some ss => some (s :: ss)
    | none => none
  | _ => none

/-- Modelled from the spec: deep parse of a raw record value into a
`PackageRecord` (`serde_json::from_str` at `sparse/mod.rs` line 228).
`name`, `version` and `build` are required strings, `subdir` defaults to
the empty string, `depends` defaults to the empty list. -/
def parsePackageRecord (v : Json) : Except String PackageRecord :=
  match v with
  | .obj fields =>
    match jLookup "name" fields, jLookup "version" fields, jLookup "build" fields with
    | some (.str name), some (.str version), some (.str build) =>
      match
        (match jLookup "subdir" fields with
         | none => some ""
         | some (.str s) => some s
         | some _ => none),
        (match jLookup "depends" fields with
         | none => some []
         | some (.arr xs) => parseStringList xs
         | some _ => none) with
      | some subdir, some depends => .ok ⟨name, version, build, subdir, depends⟩
      | _, _ => .error "invalid package record"
    | _, _, _ => .error "invalid package record"
  | _ => .error "invalid package record"

/-- Modelled from the spec: `compute_package_url(repo_base, info_base,
filename)` of `rattler_conda_types`; if `info_base` is present it is the
effective root, otherwise `repo_base`; the filename is appended verbatim. -/
def compute_package_url (repo_base : Url) (info_base : Option String) (filename : String) : Url :=
  match info_base with
  | some b => ⟨false, b ++ filename⟩
  | none => ⟨repo_base.cannotBeABase, repo_base.text ++ filename⟩

/-- Parse the filename keys of a `packages` map in encounter order (the
streaming `MapVisitor`/`MapIter` collection inside
`deserialize_filename_and_raw_record`, `sparse/mod.rs` lines 311-353);
the first bad key aborts with its error. -/
def entriesParse : List (String × Json) → Except String (List (PackageFilename × Json))
  | [] => .ok []
  | (k, v) :: rest =>
    match PackageFilename.tryFrom k with
    | .error e => .error e
    | .ok pf =>
      match entriesParse rest with
      | .ok es => .ok ((pf, v) :: es)
      | .error e => .error e

/-- The comparator key order used by `entries.sort_by(|(a, _), (b, _)|
a.package.cmp(b.package))`, as a boolean `le`. -/
def pkgLe (a b : PackageFilename × Json) : Bool :=
  strCmp a.1.package b.1.package ≠ .gt

/-- The comparator order as a decidable relation, as consumed by the stable
sort. -/
def pkgLeR (a b : PackageFilename × Json) : Prop :=
  pkgLe a b = true

instance : DecidableRel pkgLeR :=
  fun a b => instDecidableEqBool (pkgLe a b) true

/-- Model of `deserialize_filename_and_raw_record` (`sparse/mod.rs` lines
287-309): deserialize a map into (filename, raw value) pairs and stably
sort them by package name (`Vec::sort_by` is a stable sort, and stable
sorts by the same key agree extensionally; `insertionSort` is the stable
sort of the Lean library). -/
def deserialize_filename_and_raw_record (j : Json) : Except String (List (PackageFilename × Json)) :=
  match j with
  | .obj fields =>
    match entriesParse fields with
    | .ok entries => .ok (entries.insertionSort pkgLeR)
    | .error e => .error e
  | _ => .error "expected a map"

/-- The sparsely parsed repodata document (model of `LazyRepoData`,
`sparse/mod.rs` lines 192-211). -/
structure LazyRepoData where
  info : Option ChannelInfo
  packages : List (PackageFilename × Json)
  conda_packages : List (PackageFilename × Json)

/-- Modelled from the spec: deserialization of the optional `info` block
(`Option<ChannelInfo>`): a missing or null value yields no info; an object
yields its optional `base_url` string. -/
def parseInfoField (v : Option Json) : Except String (Option ChannelInfo) :=
  match v with
  | none => .ok none
  | some .null => .ok none
  | some (.obj fields) =>
    match jLookup "base_url" fields with
    | none => .ok (some ⟨none⟩)
    | some .null => .ok (some ⟨none⟩)
    | some (.str s) => .ok (some ⟨some s⟩)
    | some _ => .error "invalid base_url"
  | some _ => .error "invalid info"

/-- Model of the derived `Deserialize` for `LazyRepoData`: the document must
be a JSON object; `info` is optional, `packages` is required, and
`packages.conda` defaults to the empty sequence (`#[serde(default)]`);
unknown keys are ignored. -/
def LazyRepoData.parse (j : Json) : Except String LazyRepoData :=
  match j with
  | .obj fields =>
    match parseInfoField (jLookup "info" fields) with
    | .error e => .error e
    | .ok info =>
      match jLookup "packages" fields with
      | none => .error "missing field packages"
      | some pv =>
        match deserialize_filename_and_raw_record pv with
        | .error e => .error e
        | .ok packages =>
          match jLookup "packages.conda" fields with
          | none => .ok ⟨info, packages, []⟩
          | some cv =>
            match deserialize_filename_and_raw_record cv with
            | .error e => .error e
            | .ok conda_packages => .ok ⟨info, packages, conda_packages⟩
  | _ => .error "expected object"

/-- Result channel of record materialization: `ok`/`err` model `io::Result`,
and `fatal` models a Rust panic (the `expect` in `parse_records`). -/
inductive Outcome (α : Type) where
  | ok (val : α)
  | err (msg : String)
  | fatal (msg : String)
  deriving DecidableEq, Repr

/-- Map over the `ok` value of an `Outcome`. -/
def mapOk (f : α → β) : Outcome α → Outcome β
  | .ok v => .ok (f v)
  | .err e => .err e
  | .fatal m => .fatal m

/-- Binary search loop for the lower bound: narrows `[lo, hi)` to the first
index whose element does not compare `.lt` against the target. The interval
shrinks on every iteration, so any fuel of at least `hi - lo` yields the
loop fixpoint. -/
def lbGo (f : α → Ordering) (l : List α) (d : α) : Nat → Nat → Nat → Nat
  | 0, lo, _ => lo
  | fuel + 1, lo, hi =>
    if lo < hi then
      if f (l.getD ((lo + hi) / 2) d) = .lt then lbGo f l d fuel ((lo + hi) / 2 + 1) hi
      else lbGo f l d fuel lo ((lo + hi) / 2)
    else lo

/-- Binary search loop for the upper bound: narrows `[lo, hi)` to the first
index whose element compares `.gt` against the target. -/
def ubGo (f : α → Ordering) (l : List α) (d : α) : Nat → Nat → Nat → Nat
  | 0, lo, _ => lo
  | fuel + 1, lo, hi =>
    if lo < hi then
      if f (l.getD ((lo + hi) / 2) d) = .gt then ubGo f l d fuel lo ((lo + hi) / 2)
      else ubGo f l d fuel ((lo + hi) / 2 + 1) hi
    else lo

/-- Model of superslice `lower_bound_by`: the first index at which `f` does
not return `Less`. -/
def lowerBoundBy (f : α → Ordering) (l : List α) (d : α) : Nat :=
  lbGo f l d l.length 0 l.length

/-- Model of superslice `upper_bound_by`: the first index at which `f`
returns `Greater`. -/
def upperBoundBy (f : α → Ordering) (l : List α) (d : α) : Nat :=
  ubGo f l d l.length 0 l.length

/-- Default entry used for out-of-range reads in the binary search model
(never actually read: the search only probes indices inside `[lo, hi)`). -/
def entryDefault : PackageFilename × Json :=
  (⟨"", ""⟩, Json.null)

/-- A fully materialized record (model of `RepoDataRecord` of
`rattler_conda_types`: typed record plus url, channel name and filename). -/
structure RepoDataRecord where
  url : Url
  channel : String
  package_record : PackageRecord
  file_name : String
  deriving DecidableEq, Repr

/-- The per-entry loop of `parse_records` (`sparse/mod.rs` lines 227-246):
deep-parse each raw value, substitute the handle subdir for an empty record
subdir, join the subdir onto the channel base URL (a failing join is the
`expect` panic, modeled by `fatal`) and compute the package URL. -/
def materializeRecords (base_url : Option String) (channel : Channel) (channel_name : String)
    (subdir : String) : List (PackageFilename × Json) → Outcome (List RepoDataRecord)
  | [] => .ok []
  | (key, raw_json) :: rest =>
    match parsePackageRecord raw_json with
    | .error e => .err e
    | .ok pr =>
      let package_record := if pr.subdir = "" then { pr with subdir := subdir } else pr
      match channel.base_url.join (package_record.subdir ++ "/") with
      | none => .fatal "failed determine repo_base_url"
      | some repo_base =>
        match materializeRecords base_url channel channel_name subdir rest with
        | .ok records =>
          .ok ({ url := compute_package_url repo_base base_url key.filename,
                 channel := channel_name,
                 package_record := package_record,
                 file_name := key.filename } :: records)
        | .err e => .err e
        | .fatal m => .fatal m

/-- Application of the optional patch function after the record list is
assembled (`sparse/mod.rs` lines 248-253). -/
def applyPatch (patch_function : Option (PackageRecord → PackageRecord))
    (records : List RepoDataRecord) : List RepoDataRecord :=
  match patch_function with
  | some patch_fn => records.map (fun r => { r with package_record := patch_fn r.package_record })
  | none => records

/-- A single record with the patch function applied to its packge record
(the loop body of `sparse/mod.rs` lines 250-252). -/
def patchApplied (patch_fn : PackageRecord → PackageRecord) (r : RepoDataRecord) : RepoDataRecord :=
  { r with package_record := patch_fn r.package_record }

/-- The result of applying an optional patch function to a package record
(used to state provenance of materialized records). -/
def patchWrap (patch_function : Option (PackageRecord → PackageRecord))
    (pr : PackageRecord) : PackageRecord :=
  match patch_function with
  | some patch_fn => patch_fn pr
  | none => pr

/-- Model of `parse_records` (`sparse/mod.rs` lines 214-256): select the
equal range of entries whose package key compares equal to the normalized
target name by binary search, materialize them in order, then apply the
patch function. -/
def parse_records (package_name : PackageName) (packages : List (PackageFilename × Json))
    (base_url : Option String) (channel : Channel) (subdir : String)
    (patch_function : Option (PackageRecord → PackageRecord)) : Outcome (List RepoDataRecord) :=
  let channel_name := channel.canonical_name
  let cmpKey := fun (e : PackageFilename × Json) => strCmp e.1.package package_name.as_normalized
  let lower := lowerBoundBy cmpKey packages entryDefault
  let upper := upperBoundBy cmpKey packages entryDefault
  match materializeRecords base_url channel channel_name subdir
      ((packages.drop lower).take (upper - lower)) with
  | .ok records => .ok (applyPatch patch_function records)
  | .err e => .err e
  | .fatal m => .fatal m

/-- Model of the `SparseRepoData` handle (`sparse/mod.rs` lines 24-38): the
memory map plus shallow index pair is modeled by the parsed `LazyRepoData`
it denotes. -/
structure SparseRepoData where
  repo_data : LazyRepoData
  channel : Channel
  subdir : String
  patch_record_fn : Option (PackageRecord → PackageRecord)

/-- Collapse adjacent duplicates, the model of `Itertools::dedup` used by
`package_names`. -/
def dedupAdj : List String → List String
  | [] => []
  | [a] => [a]
  | a :: b :: rest => if a = b then dedupAdj (b :: rest) else a :: dedupAdj (b :: rest)

/-- Model of `SparseRepoData::package_names` (`sparse/mod.rs` lines 82-90):
chain the two sequences, keep the package part of each filename, collapse
adjacent duplicates. -/
def SparseRepoData.package_names (h : SparseRepoData) : List String :=
  dedupAdj ((h.repo_data.packages ++ h.repo_data.conda_packages).map (fun e => e.1.package))

/-- The `info.base_url` access shared by `load_records` and
`load_records_recursive` (`repo_data.info.as_ref().and_then(|i|
i.base_url.as_deref())`). -/
def LazyRepoData.baseUrlField (r : LazyRepoData) : Option String :=
  r.info.bind (fun i => i.base_url)

/-- Parse the legacy and conda records of one handle for one package with a
given patch function, legacy records first (the shared body of
`load_records` and of the per-handle step of `load_records_recursive`). -/
def loadBoth (repo : SparseRepoData) (package_name : PackageName)
    (patch_function : Option (PackageRecord → PackageRecord)) : Outcome (List RepoDataRecord) :=
  let base_url := repo.repo_data.baseUrlField
  match parse_records package_name repo.repo_data.packages base_url repo.channel repo.subdir
      patch_function with
  | .ok records =>
    match parse_records package_name repo.repo_data.conda_packages base_url repo.channel
        repo.subdir patch_function with
    | .ok conda_records => .ok (records ++ conda_records)
    | .err e => .err e
    | .fatal m => .fatal m
  | .err e => .err e
  | .fatal m => .fatal m

/-- Model of `SparseRepoData::load_records` (`sparse/mod.rs` lines 93-114):
legacy records then conda records, using the handle patch function. -/
def SparseRepoData.load_records (h : SparseRepoData) (package_name : PackageName) :
    Outcome (List RepoDataRecord) :=
  loadBoth h package_name h.patch_record_fn

/-- Model of the dependency-name extraction of `load_records_recursive`
(`sparse/mod.rs` lines 169-171):
`dependency.split_once(' ').unwrap_or((dependency, "")).0` is the part of
the string before the first space, or the whole string when there is no
space, wrapped by the unchecked constructor. -/
def depName (dependency : String) : PackageName :=
  PackageName.new_unchecked (String.mk (dependency.toList.takeWhile (fun ch => ch != ' ')))

/-- One dependency string processed against the `(seen, pending)` state
(`sparse/mod.rs` lines 168-176): the extracted name is enqueued and added
to `seen` iff it is not already in `seen`. -/
def addDep (sp : List PackageName × List PackageName) (dependency : String) :
    List PackageName × List PackageName :=
  let dependency_name := depName dependency
  if dependency_name ∈ sp.1 then sp
  else (sp.1 ++ [dependency_name], sp.2 ++ [dependency_name])

/-- Scan all dependencies of all freshly materialized records, updating the
`(seen, pending)` state (`sparse/mod.rs` lines 166-177). -/
def scanDeps (records : List RepoDataRecord) (sp : List PackageName × List PackageName) :
    List PackageName × List PackageName :=
  records.foldl (fun sp record => record.package_record.depends.foldl addDep sp) sp

/-- The inner `for (i, repo_data)` loop of `load_records_recursive`
(`sparse/mod.rs` lines 140-180) for one queue element: returns the new
records per handle (in handle order; appending them positionally to the
result vector models `result[i].append`) and the updated seen/pending
state. -/
def lrrRepos (patch_function : Option (PackageRecord → PackageRecord))
    (next_package : PackageName) :
    List SparseRepoData → List PackageName → List PackageName →
    Outcome (List (List RepoDataRecord) × List PackageName × List PackageName)
  | [], seen, pending => .ok ([], seen, pending)
  | repo :: rest, seen, pending =>
    match loadBoth repo next_package patch_function with
    | .err e => .err e
    | .fatal m => .fatal m
    | .ok records =>
      match scanDeps records (seen, pending) with
      | (seen', pending') =>
        match lrrRepos patch_function next_package rest seen' pending' with
        | .ok (tails, seen'', pending'') => .ok (records :: tails, seen'', pending'')
        | .err e => .err e
        | .fatal m => .fatal m

/-- The `while let Some(next_package) = pending.pop_front()` loop of
`load_records_recursive` (`sparse/mod.rs` lines 139-181), with a fuel bound
(the Rust loop terminates because every enqueued name enters `seen`, which
only grows within the finite set of names occurring in the loaded data;
`none` models fuel exhaustion and is never produced for adequate fuel) and
a ghost observer: alongside the result and the final `seen`, the loop
returns the sequence of names popped from the queue, in pop order. -/
def lrrGo (repos : List SparseRepoData) (patch_function : Option (PackageRecord → PackageRecord)) :
    Nat → List PackageName → List PackageName → List (List RepoDataRecord) →
    List PackageName →
    Option (Outcome (List (List RepoDataRecord) × List PackageName × List PackageName))
  | _, [], seen, result, processed => some (.ok (result, seen, processed))
  | 0, _ :: _, _, _, _ => none
  | fuel + 1, next_package :: pendingRest, seen, result, processed =>
    match lrrRepos patch_function next_package repos seen pendingRest with
    | .err e => some (.err e)
    | .fatal m => some (.fatal m)
    | .ok (newRecords, seen', pending') =>
      lrrGo repos patch_function fuel pending' seen'
        (List.zipWith (fun a b => a ++ b) result newRecords) (processed ++ [next_package])

/-- Model of `HashSet::from_iter` over the root names followed by
`VecDeque::from_iter(seen.iter().cloned())` (`sparse/mod.rs` lines
133-136): duplicate roots collapse; the iteration order is modeled as
first-occurrence order. -/
def dedupFold (names : List PackageName) : List PackageName :=
  names.foldl (fun s n => if n ∈ s then s else s ++ [n]) []

/-- Number of entries of a raw `depends` array, used only for the fuel bound
of the traversal. -/
def rawDepsCount (v : Json) : Nat :=
  match v with
  | .obj fields =>
    match jLookup "depends" fields with
    | some (.arr xs) => xs.length
    | _ => 0
  | _ => 0

/-- Fuel bound for the traversal: at most one queue pop per distinct name,
and every enqueued name comes from some raw `depends` entry. -/
def lrrFuel (repos : List SparseRepoData) : Nat :=
  (repos.map (fun repo =>
    ((repo.repo_data.packages ++ repo.repo_data.conda_packages).map
      (fun e => rawDepsCount e.2)).sum)).sum

/-- Model of `SparseRepoData::load_records_recursive` (`sparse/mod.rs` lines
122-184): de-duplicate the roots into `seen` and the queue, then run the
BFS loop; `none` models fuel exhaustion of the loop model. -/
def load_records_recursive (repo_data : List SparseRepoData)
    (package_names : List PackageName)
    (patch_function : Option (PackageRecord → PackageRecord)) :
    Option (Outcome (List (List RepoDataRecord))) :=
  let seen := dedupFold package_names
  let pending := seen
  match lrrGo repo_data patch_function (lrrFuel repo_data + seen.length + 1) pending seen
      (repo_data.map (fun _ => [])) [] with
  | some (.ok (result, _, _)) => some (.ok result)
  | some (.err e) => some (.err e)
  | some (.fatal m) => some (.fatal m)
  | none => none

/-- Boolean sortedness of an entry sequence by package name ascending
(invariant I2 of the spec, established by the shallow parser). -/
def sortedKeysB : List (PackageFilename × Json) → Bool
  | [] => true
  | [_] => true
  | a :: b :: rest => pkgLe a b && sortedKeysB (b :: rest)

/-- Boolean sortedness of a name list ascending. -/
def sortedNamesB : List String → Bool
  | [] => true
  | [_] => true
  | a :: b :: rest => (strCmp a b != .gt) && sortedNamesB (b :: rest)

/-- A JSON value is a map all of whose keys parse as package filenames. -/
def packagesMapOk (v : Json) : Bool :=
  match v with
  | .obj fields => fields.all (fun kv => (PackageFilename.tryFrom kv.1).isOk)
  | _ => false

/-- The optional `info` value deserializes (absent, null, or an object whose
optional `base_url` is null or a string). -/
def infoFieldOk (v : Option Json) : Bool :=
  match v with
  | none => true
  | some .null => true
  | some (.obj fields) =>
    match jLookup "base_url" fields with
    | none => true
    | some .null => true
    | some (.str _) => true
    | some _ => false
  | some _ => false

/-- The exact domain of successful shallow parses of `LazyRepoData.parse`. -/
def lazyOk (j : Json) : Bool :=
  match j with
  | .obj fields =>
    infoFieldOk (jLookup "info" fields) &&
    (match jLookup "packages" fields with
     | some v => packagesMapOk v
     | none => false) &&
    (match jLookup "packages.conda" fields with
     | some v => packagesMapOk v
     | none => true)
  | _ => false

/-- The failure condition claimed by the spec for shallow parsing, written
from the spec words (claim C6): not a JSON object, a present sequence key
that is not a map, or a filename key that fails the filename parse. -/
def claimedShallowFailure (j : Json) : Bool :=
  match j with
  | .obj fields =>
    (match jLookup "packages" fields with
     | some v => !packagesMapOk v
     | none => false) ||
    (match jLookup "packages.conda" fields with
     | some v => !packagesMapOk v
     | none => false)
  | _ => true

/-- Names of the records of a successful load, used to state concrete
outcomes without comparing whole records. -/
def recordNames (o : Outcome (List RepoDataRecord)) : Option (List String) :=
  match o with
  | .ok records => some (records.map (fun r => r.package_record.name))
  | _ => none

/-- Subdirs of the records of a successful load. -/
def recordSubdirs (o : Outcome (List RepoDataRecord)) : Option (List String) :=
  match o with
  | .ok records => some (records.map (fun r => r.package_record.subdir))
  | _ => none

/-- A handle with its per-handle patch hook removed (used to state that the
recursive loader never consults the per-handle hooks). -/
def eraseHook (repo : SparseRepoData) : SparseRepoData :=
  { repo with patch_record_fn := none }

/-- A record-mutation hook that erases the subdir, violating the documented
hook contract (used as a counterexample input). -/
def emptySubdirPatch (r : PackageRecord) : PackageRecord :=
  { r with subdir := "" }

/-- A concrete well-formed channel. -/
def sampleChannel : Channel :=
  ⟨⟨false, "https://example.org/channel/"⟩, "example-channel"⟩

/-- A concrete channel whose base URL cannot be a base, so that `Url::join`
fails on it. -/
def badBaseChannel : Channel :=
  ⟨⟨true, "data:text/plain,hello"⟩, "bad-channel"⟩

/-- An entry whose filename-derived package key is `foo` but whose raw
record names itself `bar`. -/
def fooBarEntry : PackageFilename × Json :=
  (⟨"foo", "foo-1.0-0.tar.bz2"⟩,
   Json.obj [("name", Json.str "bar"), ("version", Json.str "1.0"), ("build", Json.str "0")])

/-- A handle holding only `fooBarEntry`. -/
def nameMismatchHandle : SparseRepoData :=
  { repo_data := { info := none, packages := [fooBarEntry], conda_packages := [] },
    channel := sampleChannel, subdir := "linux-64", patch_record_fn := none }

/-- A handle with the package `zlib` present in both the legacy and the
conda sequence. -/
def zlibBothHandle : SparseRepoData :=
  { repo_data :=
      { info := none,
        packages := [(⟨"zlib", "zlib-1.0-0.tar.bz2"⟩, Json.null)],
        conda_packages := [(⟨"zlib", "zlib-1.0-0.conda"⟩, Json.null)] },
    channel := sampleChannel, subdir := "linux-64", patch_record_fn := none }

/-- A handle whose only record carries a non-empty subdir but whose patch
hook erases subdirs. -/
def subdirPatchHandle : SparseRepoData :=
  { repo_data :=
      { info := none,
        packages := [(⟨"foo", "foo-1.0-0.tar.bz2"⟩,
          Json.obj [("name", Json.str "foo"), ("version", Json.str "1.0"),
                    ("build", Json.str "0"), ("subdir", Json.str "osx-64")])],
        conda_packages := [] },
    channel := sampleChannel, subdir := "linux-64", patch_record_fn := some emptySubdirPatch }

/-- A handle where package `a` depends on `b` and `b` has no dependencies. -/
def depChainHandle : SparseRepoData :=
  { repo_data :=
      { info := none,
        packages :=
          [(⟨"a", "a-1-0.tar.bz2"⟩,
            Json.obj [("name", Json.str "a"), ("version", Json.str "1"),
                      ("build", Json.str "0"),
                      ("depends", Json.arr [Json.str "b >=1.0"])]),
           (⟨"b", "b-1-0.tar.bz2"⟩,
            Json.obj [("name", Json.str "b"), ("version", Json.str "1"),
                      ("build", Json.str "0")])],
        conda_packages := [] },
    channel := sampleChannel, subdir := "noarch", patch_record_fn := none }

/-- A handle where the packages `aaa` and `zlib` both occur in the legacy
and the conda sequences, with `aaa` not adjacent at the boundary of the
concatenation. -/
def dupAcrossHandle : SparseRepoData :=
  { repo_data :=
      { info := none,
        packages := [(⟨"aaa", "aaa-1-0.tar.bz2"⟩, Json.null),
                     (⟨"zlib", "zlib-1-0.tar.bz2"⟩, Json.null)],
        conda_packages := [(⟨"aaa", "aaa-1-0.conda"⟩, Json.null),
                           (⟨"zlib", "zlib-1-0.conda"⟩, Json.null)] },
    channel := sampleChannel, subdir := "linux-64", patch_record_fn := none }

/-- The three filename keys of the sort-discriminator scenario of the spec,
in their filename-sorted encounter order. -/
def clangTrio : List (String × Json) :=
  [("clang-format-12.0.1-default_he082bbe_4.tar.bz2", Json.null),
   ("clang-format-13-13.0.0-default_he082bbe_0.tar.bz2", Json.null),
   ("clang-format-13.0.0-default_he082bbe_0.tar.bz2", Json.null)]

/-! Order-theoretic facts about the string comparison. -/

theorem cmpChars_eq_iff : ∀ (a b : List Char), cmpChars a b = .eq ↔ a = b
  | [], [] => by simp [cmpChars]
  | [], _ :: _ => by simp [cmpChars]
  | _ :: _, [] => by simp [cmpChars]
  | a :: as, b :: bs => by
    simp only [cmpChars]
    split_ifs with h1 h2
    · constructor
      · intro h; exact absurd h (by decide)
      · intro h
        rw [List.cons.injEq] at h
        exact absurd (h.1 ▸ h1) (lt_irrefl b)
    · constructor
      · intro h; exact absurd h (by decide)
      · intro h
        rw [List.cons.injEq] at h
        exact absurd (h.1 ▸ h2) (lt_irrefl b)
    · have hab : a = b := le_antisymm (not_lt.mp h2) (not_lt.mp h1)
      subst hab
      rw [cmpChars_eq_iff as bs]
      simp

theorem cmpChars_lt_trans :
    ∀ (a b c : List Char), cmpChars a b = .lt → cmpChars b c = .lt → cmpChars a c = .lt
  | [], [], _, h1, _ => by simp [cmpChars] at h1
  | [], _ :: _, [], _, h2 => by simp [cmpChars] at h2
  | [], _ :: _, _ :: _, _, _ => by simp [cmpChars]
  | _ :: _, [], _, h1, _ => by simp [cmpChars] at h1
  | _ :: _, _ :: _, [], _, h2 => by simp [cmpChars] at h2
  | a :: as, b :: bs, c :: cs, h1, h2 => by
    simp only [cmpChars] at h1 h2 ⊢
    by_cases hab : a < b
    · by_cases hbc : b < c
      · rw [if_pos (lt_trans hab hbc)]
      · rw [if_neg hbc] at h2
        by_cases hcb : c < b
        · rw [if_pos hcb] at h2; exact absurd h2 (by decide)
        · have hbceq : b = c := le_antisymm (not_lt.mp hcb) (not_lt.mp hbc)
          subst hbceq
          rw [if_pos hab]
    · rw [if_neg hab] at h1
      by_cases hba : b < a
      · rw [if_pos hba] at h1; exact absurd h1 (by decide)
      · have habeq : a = b := le_antisymm (not_lt.mp hba) (not_lt.mp hab)
        subst habeq
        by_cases hac : a < c
        · rw [if_pos hac]
        · rw [if_neg hac] at h2 ⊢
          by_cases hca : c < a
          · rw [if_pos hca] at h2; exact absurd h2 (by decide)
          · have haceq : a = c := le_antisymm (not_lt.mp hca) (not_lt.mp hac)
            subst haceq
            rw [if_neg (lt_irrefl a)] at h1 h2 ⊢
            exact cmpChars_lt_trans as bs cs h1 h2

theorem cmpChars_swap : ∀ (a b : List Char), (cmpChars a b).swap = cmpChars b a
  | [], [] => rfl
  | [], _ :: _ => rfl
  | _ :: _, [] => rfl
  | a :: as, b :: bs => by
    simp only [cmpChars]
    by_cases h1 : a < b
    · rw [if_pos h1, if_neg (lt_asymm h1), if_pos h1]; rfl
    · by_cases h2 : b < a
      · rw [if_neg h1, if_pos h2, if_pos h2]; rfl
      · rw [if_neg h1, if_neg h2, if_neg h2, if_neg h1]
        exact cmpChars_swap as bs

theorem cmpChars_gt_iff {a b : List Char} : cmpChars a b = .gt ↔ cmpChars b a = .lt := by
  rw [← cmpChars_swap a b]
  cases cmpChars a b <;> simp [Ordering.swap]

theorem clLe_trans {a b c : List Char} (h1 : cmpChars a b ≠ .gt) (h2 : cmpChars b c ≠ .gt) :
    cmpChars a c ≠ .gt := by
  rcases hab : cmpChars a b with _ | _ | _
  · rcases hbc : cmpChars b c with _ | _ | _
    · rw [cmpChars_lt_trans a b c hab hbc]; decide
    · rw [← (cmpChars_eq_iff b c).mp hbc, hab]; decide
    · exact absurd hbc h2
  · rw [(cmpChars_eq_iff a b).mp hab]; exact h2
  · exact absurd hab h1

theorem ordRank_le_two (o : Ordering) : ordRank o ≤ 2 := by
  cases o <;> simp [ordRank]

theorem one_le_ordRank {o : Ordering} (h : o ≠ .lt) : 1 ≤ ordRank o := by
  cases o
  · exact absurd rfl h
  · simp [ordRank]
  · simp [ordRank]

theorem ordRank_le_one {o : Ordering} (h : o ≠ .gt) : ordRank o ≤ 1 := by
  cases o
  · simp [ordRank]
  · simp [ordRank]
  · exact absurd rfl h

theorem ordRank_eq_one {o : Ordering} (h : ordRank o = 1) : o = .eq := by
  cases o <;> simp [ordRank] at h ⊢

theorem ordRank_cmp_mono {a b t : List Char} (hab : cmpChars a b ≠ .gt) :
    ordRank (cmpChars a t) ≤ ordRank (cmpChars b t) := by
  rcases h : cmpChars a b with _ | _ | _
  · rcases hbt : cmpChars b t with _ | _ | _
    · rw [cmpChars_lt_trans a b t h hbt]
    · rw [← (cmpChars_eq_iff b t).mp hbt, h]
      simp [ordRank]
    · exact le_trans (ordRank_le_two _) (by simp [ordRank])
  · rw [(cmpChars_eq_iff a b).mp h]
  · exact absurd h hab

theorem strCmp_eq_iff {a b : String} : strCmp a b = .eq ↔ a = b := by
  rw [strCmp, cmpChars_eq_iff]
  constructor
  · intro h; exact String.ext h
  · intro h; rw [h]

/-! Correctness of the equal-range binary search on sorted sequences. -/

theorem lbGo_spec (f : α → Ordering) (l : List α) (d : α) :
    ∀ (fuel lo hi : Nat), hi - lo ≤ fuel → lo ≤ hi → hi ≤ l.length →
      (lo = 0 ∨ f (l.getD (lo - 1) d) = .lt) →
      (hi = l.length ∨ f (l.getD hi d) ≠ .lt) →
      lo ≤ lbGo f l d fuel lo hi ∧ lbGo f l d fuel lo hi ≤ hi ∧
      (lbGo f l d fuel lo hi = 0 ∨ f (l.getD (lbGo f l d fuel lo hi - 1) d) = .lt) ∧
      (lbGo f l d fuel lo hi = l.length ∨ f (l.getD (lbGo f l d fuel lo hi) d) ≠ .lt) := by
  intro fuel
  induction fuel with
  | zero =>
    intro lo hi hfuel hlohi hhil hlo hhi
    have heq : lo = hi := by omega
    simp only [lbGo]
    refine ⟨le_refl _, hlohi, hlo, ?_⟩
    rw [heq]; exact hhi
  | succ n ih =>
    intro lo hi hfuel hlohi hhil hlo hhi
    simp only [lbGo]
    by_cases h : lo < hi
    · rw [if_pos h]
      by_cases hf : f (l.getD ((lo + hi) / 2) d) = .lt
      · rw [if_pos hf]
        have hrec := ih ((lo + hi) / 2 + 1) hi (by omega) (by omega) hhil
          (Or.inr (by simpa using hf)) hhi
        exact ⟨by omega, hrec.2.1, hrec.2.2.1, hrec.2.2.2⟩
      · rw [if_neg hf]
        have hrec := ih lo ((lo + hi) / 2) (by omega) (by omega) (by omega) hlo (Or.inr hf)
        exact ⟨hrec.1, by omega, hrec.2.2.1, hrec.2.2.2⟩
    · rw [if_neg h]
      have heq : lo = hi := by omega
      refine ⟨le_refl _, hlohi, hlo, ?_⟩
      rw [heq]; exact hhi

theorem ubGo_spec (f : α → Ordering) (l : List α) (d : α) :
    ∀ (fuel lo hi : Nat), hi - lo ≤ fuel → lo ≤ hi → hi ≤ l.length →
      (lo = 0 ∨ f (l.getD (lo - 1) d) ≠ .gt) →
      (hi = l.length ∨ f (l.getD hi d) = .gt) →
      lo ≤ ubGo f l d fuel lo hi ∧ ubGo f l d fuel lo hi ≤ hi ∧
      (ubGo f l d fuel lo hi = 0 ∨ f (l.getD (ubGo f l d fuel lo hi - 1) d) ≠ .gt) ∧
      (ubGo f l d fuel lo hi = l.length ∨ f (l.getD (ubGo f l d fuel lo hi) d) = .gt) := by
  intro fuel
  induction fuel with
  | zero =>
    intro lo hi hfuel hlohi hhil hlo hhi
    have heq : lo = hi := by omega
    simp only [ubGo]
    refine ⟨le_refl _, hlohi, hlo, ?_⟩
    rw [heq]; exact hhi
  | succ n ih =>
    intro lo hi hfuel hlohi hhil hlo hhi
    simp only [ubGo]
    by_cases h : lo < hi
    · rw [if_pos h]
      by_cases hf : f (l.getD ((lo + hi) / 2) d) = .gt
      · rw [if_pos hf]
        have hrec := ih lo ((lo + hi) / 2) (by omega) (by omega) (by omega) hlo (Or.inr hf)
        exact ⟨hrec.1, by omega, hrec.2.2.1, hrec.2.2.2⟩
      · rw [if_neg hf]
        have hrec := ih ((lo + hi) / 2 + 1) hi (by omega) (by omega) hhil
          (Or.inr (by simpa using hf)) hhi
        exact ⟨by omega, hrec.2.1, hrec.2.2.1, hrec.2.2.2⟩
    · rw [if_neg h]
      have heq : lo = hi := by omega
      refine ⟨le_refl _, hlohi, hlo, ?_⟩
      rw [heq]; exact hhi

theorem pkgLe_trans {a b c : PackageFilename × Json} (h1 : pkgLe a b = true)
    (h2 : pkgLe b c = true) : pkgLe a c = true := by
  simp only [pkgLe, strCmp, decide_eq_true_eq] at h1 h2 ⊢
  exact clLe_trans h1 h2

theorem sortedKeysB_pairwise : ∀ {l : List (PackageFilename × Json)}, sortedKeysB l = true →
    l.Pairwise (fun a b => pkgLe a b = true)
  | [], _ => List.Pairwise.nil
  | [a], _ => by simp
  | a :: b :: rest, h => by
    simp only [sortedKeysB, Bool.and_eq_true] at h
    have ih := sortedKeysB_pairwise h.2
    rw [List.pairwise_cons]
    refine ⟨?_, ih⟩
    intro x hx
    rcases List.mem_cons.mp hx with rfl | hx
    · exact h.1
    · exact pkgLe_trans h.1 ((List.pairwise_cons.mp ih).1 x hx)

theorem sorted_rank_mono {l : List (PackageFilename × Json)} (hs : sortedKeysB l = true)
    (t : String) {i j : Nat} (hij : i ≤ j) (hj : j < l.length) :
    ordRank (strCmp (l.getD i entryDefault).1.package t) ≤
      ordRank (strCmp (l.getD j entryDefault).1.package t) := by
  rcases Nat.eq_or_lt_of_le hij with rfl | hlt
  · exact le_refl _
  · have hp := sortedKeysB_pairwise hs
    rw [List.pairwise_iff_getElem] at hp
    have hle := hp i j (by omega) hj hlt
    rw [List.getD_eq_getElem l entryDefault (by omega : i < l.length),
        List.getD_eq_getElem l entryDefault hj]
    simp only [pkgLe, strCmp, decide_eq_true_eq] at hle
    exact ordRank_cmp_mono hle

theorem slice_pkg_eq (t : String) (l : List (PackageFilename × Json))
    (hs : sortedKeysB l = true) :
    ∀ e ∈ (l.drop (lowerBoundBy (fun e => strCmp e.1.package t) l entryDefault)).take
        (upperBoundBy (fun e => strCmp e.1.package t) l entryDefault -
          lowerBoundBy (fun e => strCmp e.1.package t) l entryDefault),
      e.1.package = t := by
  have hlb := lbGo_spec (fun e => strCmp e.1.package t) l entryDefault l.length 0 l.length
    (by omega) (by omega) (le_refl _) (Or.inl rfl) (Or.inl rfl)
  have hub := ubGo_spec (fun e => strCmp e.1.package t) l entryDefault l.length 0 l.length
    (by omega) (by omega) (le_refl _) (Or.inl rfl) (Or.inl rfl)
  simp only [lowerBoundBy, upperBoundBy]
  set lb := lbGo (fun e => strCmp e.1.package t) l entryDefault l.length 0 l.length with hlbdef
  set ub := ubGo (fun e => strCmp e.1.package t) l entryDefault l.length 0 l.length with hubdef
  intro e he
  rw [List.mem_iff_getElem] at he
  obtain ⟨i, hi, hei⟩ := he
  rw [List.length_take, List.length_drop, lt_min_iff] at hi
  rw [List.getElem_take, List.getElem_drop] at hei
  have hjlen : lb + i < l.length := by omega
  have hjub : lb + i < ub := by omega
  have hlblen : lb < l.length := by omega
  have hub0 : 0 < ub := by omega
  have hub1len : ub - 1 < l.length := by omega
  have h1 : strCmp (l.getD lb entryDefault).1.package t ≠ .lt := by
    rcases hlb.2.2.2 with h | h
    · omega
    · exact h
  have h2 : strCmp (l.getD (ub - 1) entryDefault).1.package t ≠ .gt := by
    rcases hub.2.2.1 with h | h
    · omega
    · exact h
  have hlow : 1 ≤ ordRank (strCmp (l.getD (lb + i) entryDefault).1.package t) :=
    le_trans (one_le_ordRank h1) (sorted_rank_mono hs t (by omega) hjlen)
  have hhigh : ordRank (strCmp (l.getD (lb + i) entryDefault).1.package t) ≤ 1 :=
    le_trans (sorted_rank_mono hs t (by omega : lb + i ≤ ub - 1) hub1len) (ordRank_le_one h2)
  have heq1 : strCmp (l.getD (lb + i) entryDefault).1.package t = .eq :=
    ordRank_eq_one (by omega)
  have hpt := strCmp_eq_iff.mp heq1
  rw [List.getD_eq_getElem l entryDefault hjlen] at hpt
  rw [← hei]
  exact hpt

/-! Provenance of materialized records. -/

theorem materializeRecords_mem {base_url : Option String} {channel : Channel}
    {channel_name subdir : String} :
    ∀ (entries : List (PackageFilename × Json)) (records : List RepoDataRecord),
      materializeRecords base_url channel channel_name subdir entries = .ok records →
      ∀ r ∈ records, ∃ e ∈ entries, ∃ pre,
        parsePackageRecord e.2 = .ok pre ∧
        r.file_name = e.1.filename ∧
        r.package_record = (if pre.subdir = "" then { pre with subdir := subdir } else pre) := by
  intro entries
  induction entries with
  | nil =>
    intro records h r hr
    simp only [materializeRecords] at h
    cases h
    simp at hr
  | cons e rest ih =>
    intro records h r hr
    obtain ⟨key, raw⟩ := e
    simp only [materializeRecords] at h
    cases hp : parsePackageRecord raw with
    | error msg => rw [hp] at h; simp at h
    | ok pre =>
      rw [hp] at h
      simp only [] at h
      cases hj : Url.join channel.base_url
          ((if pre.subdir = "" then { pre with subdir := subdir } else pre).subdir ++ "/") with
      | none => rw [hj] at h; simp at h
      | some repo_base =>
        rw [hj] at h
        simp only [] at h
        cases hm : materializeRecords base_url channel channel_name subdir rest with
        | err msg => rw [hm] at h; simp at h
        | fatal msg => rw [hm] at h; simp at h
        | ok tailRecords =>
          rw [hm] at h
          simp only [Outcome.ok.injEq] at h
          subst h
          rcases List.mem_cons.mp hr with rfl | htail
          · exact ⟨(key, raw), List.mem_cons_self _ _, pre, hp, rfl, rfl⟩
          · obtain ⟨e, he, pre2, hpre2⟩ := ih tailRecords hm r htail
            exact ⟨e, List.mem_cons_of_mem _ he, pre2, hpre2⟩

theorem parse_records_mem {package_name : PackageName}
    {packages : List (PackageFilename × Json)} {base_url : Option String} {channel : Channel}
    {subdir : String} {patch_function : Option (PackageRecord → PackageRecord)}
    {records : List RepoDataRecord}
    (hs : sortedKeysB packages = true)
    (h : parse_records package_name packages base_url channel subdir patch_function =
      .ok records) :
    ∀ r ∈ records, ∃ e ∈ packages, e.1.package = package_name.as_normalized ∧
      r.file_name = e.1.filename ∧ ∃ pre, parsePackageRecord e.2 = .ok pre ∧
        r.package_record =
          patchWrap patch_function
            (if pre.subdir = "" then { pre with subdir := subdir } else pre) := by
  intro r hr
  simp only [parse_records] at h
  cases hm : materializeRecords base_url channel channel.canonical_name subdir
      ((packages.drop
          (lowerBoundBy (fun e => strCmp e.1.package package_name.as_normalized) packages
            entryDefault)).take
        (upperBoundBy (fun e => strCmp e.1.package package_name.as_normalized) packages
            entryDefault -
          lowerBoundBy (fun e => strCmp e.1.package package_name.as_normalized) packages
            entryDefault)) with
  | err msg => rw [hm] at h; simp at h
  | fatal msg => rw [hm] at h; simp at h
  | ok mats =>
    rw [hm] at h
    simp only [Outcome.ok.injEq] at h
    subst h
    have hsub : ∀ x ∈ mats, ∃ e ∈ packages, e.1.package = package_name.as_normalized ∧
        x.file_name = e.1.filename ∧ ∃ pre, parsePackageRecord e.2 = .ok pre ∧
          x.package_record = (if pre.subdir = "" then { pre with subdir := subdir } else pre) := by
      intro x hx
      obtain ⟨e, he, pre, hpre, hfn, hpr⟩ := materializeRecords_mem _ _ hm x hx
      refine ⟨e, ?_, ?_, hfn, pre, hpre, hpr⟩
      · exact List.Sublist.mem he
          (List.Sublist.trans (List.take_sublist _ _) (List.drop_sublist _ _))
      · exact slice_pkg_eq package_name.as_normalized packages hs e he
    cases patch_function with
    | none =>
      simp only [applyPatch] at hr
      obtain ⟨e, he, hkey, hfn, pre, hpre, hpr⟩ := hsub r hr
      exact ⟨e, he, hkey, hfn, pre, hpre, by simpa [patchWrap] using hpr⟩
    | some patch_fn =>
      simp only [applyPatch] at hr
      obtain ⟨r0, hr0, hr0eq⟩ := List.mem_map.mp hr
      obtain ⟨e, he, hkey, hfn, pre, hpre, hpr⟩ := hsub r0 hr0
      refine ⟨e, he, hkey, ?_, pre, hpre, ?_⟩
      · rw [← hr0eq]; exact hfn
      · rw [← hr0eq]
        show patch_fn r0.package_record = patchWrap (some patch_fn) _
        rw [hpr]
        simp [patchWrap]

theorem loadBoth_mem {repo : SparseRepoData} {package_name : PackageName}
    {patch_function : Option (PackageRecord → PackageRecord)} {records : List RepoDataRecord}
    (hs1 : sortedKeysB repo.repo_data.packages = true)
    (hs2 : sortedKeysB repo.repo_data.conda_packages = true)
    (h : loadBoth repo package_name patch_function = .ok records) :
    ∀ r ∈ records, ∃ e,
      (e ∈ repo.repo_data.packages ∨ e ∈ repo.repo_data.conda_packages) ∧
      e.1.package = package_name.as_normalized ∧ r.file_name = e.1.filename ∧
      ∃ pre, parsePackageRecord e.2 = .ok pre ∧
        r.package_record =
          patchWrap patch_function
            (if pre.subdir = "" then { pre with subdir := repo.subdir } else pre) := by
  intro r hr
  simp only [loadBoth] at h
  cases h1 : parse_records package_name repo.repo_data.packages repo.repo_data.baseUrlField
      repo.channel repo.subdir patch_function with
  | err msg => rw [h1] at h; simp at h
  | fatal msg => rw [h1] at h; simp at h
  | ok recs1 =>
    rw [h1] at h
    simp only [] at h
    cases h2 : parse_records package_name repo.repo_data.conda_packages
        repo.repo_data.baseUrlField repo.channel repo.subdir patch_function with
    | err msg => rw [h2] at h; simp at h
    | fatal msg => rw [h2] at h; simp at h
    | ok recs2 =>
      rw [h2] at h
      simp only [Outcome.ok.injEq] at h
      subst h
      rcases List.mem_append.mp hr with hmem | hmem
      · obtain ⟨e, he, hkey, hfn, pre, hpre, hpr⟩ := parse_records_mem hs1 h1 r hmem
        exact ⟨e, Or.inl he, hkey, hfn, pre, hpre, hpr⟩
      · obtain ⟨e, he, hkey, hfn, pre, hpre, hpr⟩ := parse_records_mem hs2 h2 r hmem
        exact ⟨e, Or.inr he, hkey, hfn, pre, hpre, hpr⟩

/-- C1 (counterexample): querying `load_records` for the name `foo` on a
handle whose only entry has filename-derived key `foo` but raw record name
`bar` returns a record whose `package_record.name` is `bar`, not `foo`: the
deep-parsed name field is never checked against the filename-derived key it
was selected by. -/
theorem c1_counterexample :
    recordNames (SparseRepoData.load_records nameMismatchHandle
      (PackageName.new_unchecked "foo")) = some ["bar"] := by
  decide

/-- C1 (amended): for a handle whose sequences are sorted by package key
(invariant I2), every record returned by `load_records n` was deep-parsed
from an entry whose filename-derived package key equals `n.normalized()`;
the record's own `name` field is taken verbatim from the raw JSON and need
not equal `n`. -/
theorem c1_selected_by_key (h : SparseRepoData) (n : PackageName)
    (records : List RepoDataRecord)
    (hs1 : sortedKeysB h.repo_data.packages = true)
    (hs2 : sortedKeysB h.repo_data.conda_packages = true)
    (hok : SparseRepoData.load_records h n = .ok records) :
    ∀ r ∈ records, ∃ e,
      (e ∈ h.repo_data.packages ∨ e ∈ h.repo_data.conda_packages) ∧
      e.1.package = n.as_normalized ∧ r.file_name = e.1.filename := by
  intro r hr
  obtain ⟨e, he, hkey, hfn, _⟩ := loadBoth_mem hs1 hs2 hok r hr
  exact ⟨e, he, hkey, hfn⟩

/-- Witness for C1: the amended selection property evaluated on the concrete
mismatching handle. -/
theorem c1_selected_by_key_witness :
    ∃ e, (e ∈ nameMismatchHandle.repo_data.packages ∨
          e ∈ nameMismatchHandle.repo_data.conda_packages) ∧
      e.1.package = (PackageName.new_unchecked "foo").as_normalized ∧
      "foo-1.0-0.tar.bz2" = e.1.filename := by
  have hall := c1_selected_by_key nameMismatchHandle (PackageName.new_unchecked "foo")
    [{ url := ⟨false, "https://example.org/channel/linux-64/foo-1.0-0.tar.bz2"⟩,
       channel := "example-channel",
       package_record := ⟨"bar", "1.0", "0", "linux-64", []⟩,
       file_name := "foo-1.0-0.tar.bz2" }] (by decide) (by decide) rfl
  exact hall _ (List.mem_singleton.mpr rfl)

/-- C7 (counterexample): a configured mutation hook runs after the subdir
substitution and may erase the subdir: on a handle with subdir `linux-64`,
a raw record with non-empty subdir `osx-64` and the subdir-erasing hook,
the materialized record has an empty subdir, so neither `left unchanged`
nor the non-emptiness consequence holds for every materialized record. -/
theorem c7_counterexample :
    recordSubdirs (SparseRepoData.load_records subdirPatchHandle
      (PackageName.new_unchecked "foo")) = some [""] ∧
    subdirPatchHandle.subdir ≠ "" := by
  decide

/-- C7 (amended): provided the configured mutation hook (if any) leaves the
record subdir unchanged — the documented hook contract — every record
materialized by `load_records` got the handle subdir substituted when the
deep-parsed subdir was empty, kept its own subdir otherwise, and has a
non-empty subdir whenever the handle subdir is non-empty. -/
theorem c7_subdir_substitution (h : SparseRepoData) (n : PackageName)
    (records : List RepoDataRecord)
    (hs1 : sortedKeysB h.repo_data.packages = true)
    (hs2 : sortedKeysB h.repo_data.conda_packages = true)
    (hhook : ∀ patch_fn, h.patch_record_fn = some patch_fn →
      ∀ pr, (patch_fn pr).subdir = pr.subdir)
    (hok : SparseRepoData.load_records h n = .ok records) :
    ∀ r ∈ records, ∃ e,
      (e ∈ h.repo_data.packages ∨ e ∈ h.repo_data.conda_packages) ∧
      ∃ pre, parsePackageRecord e.2 = .ok pre ∧
        (pre.subdir = "" → r.package_record.subdir = h.subdir) ∧
        (pre.subdir ≠ "" → r.package_record.subdir = pre.subdir) ∧
        (h.subdir ≠ "" → r.package_record.subdir ≠ "") := by
  intro r hr
  obtain ⟨e, he, _, _, pre, hpre, hpr⟩ := loadBoth_mem hs1 hs2 hok r hr
  have hw : (patchWrap h.patch_record_fn
      (if pre.subdir = "" then { pre with subdir := h.subdir } else pre)).subdir =
      (if pre.subdir = "" then { pre with subdir := h.subdir } else pre).subdir := by
    cases hp : h.patch_record_fn with
    | none => simp [patchWrap]
    | some patch_fn =>
      simp only [patchWrap]
      exact hhook patch_fn hp _
  refine ⟨e, he, pre, hpre, ?_, ?_, ?_⟩
  · intro hempty
    rw [hpr, hw, if_pos hempty]
  · intro hne
    rw [hpr, hw, if_neg hne]
  · intro hhs
    rw [hpr, hw]
    by_cases hempty : pre.subdir = ""
    · rw [if_pos hempty]; exact hhs
    · rw [if_neg hempty]; exact hempty

/-- Witness for C7: the amended subdir property evaluated on the concrete
mismatching handle, whose raw record omits the subdir. -/
theorem c7_subdir_substitution_witness :
    ∃ e, (e ∈ nameMismatchHandle.repo_data.packages ∨
          e ∈ nameMismatchHandle.repo_data.conda_packages) ∧
      ∃ pre, parsePackageRecord e.2 = .ok pre ∧
        (pre.subdir = "" → ("linux-64" : String) = nameMismatchHandle.subdir) ∧
        (pre.subdir ≠ "" → ("linux-64" : String) = pre.subdir) ∧
        (nameMismatchHandle.subdir ≠ "" → ("linux-64" : String) ≠ "") := by
  have hall := c7_subdir_substitution nameMismatchHandle (PackageName.new_unchecked "foo")
    [{ url := ⟨false, "https://example.org/channel/linux-64/foo-1.0-0.tar.bz2"⟩,
       channel := "example-channel",
       package_record := ⟨"bar", "1.0", "0", "linux-64", []⟩,
       file_name := "foo-1.0-0.tar.bz2" }] (by decide) (by decide)
    (by intro f hf; simp [nameMismatchHandle] at hf) rfl
  exact hall _ (List.mem_singleton.mpr rfl)

/-! Facts about the split functions, leading to claim C2. -/

theorem splitAll_ne_nil (c : Char) : ∀ (l : List Char), splitAll c l ≠ []
  | [] => by simp [splitAll]
  | x :: xs => by
    simp only [splitAll]
    cases h : splitAll c xs with
    | nil => simp
    | cons p ps =>
      simp only []
      by_cases hx : x = c
      · simp [hx]
      · simp [hx]

theorem splitAll_length (c : Char) : ∀ (l : List Char),
    (splitAll c l).length = l.count c + 1
  | [] => by simp [splitAll]
  | x :: xs => by
    simp only [splitAll]
    have hlen := splitAll_length c xs
    cases h : splitAll c xs with
    | nil => exact absurd h (splitAll_ne_nil c xs)
    | cons p ps =>
      rw [h] at hlen
      simp only []
      by_cases hx : x = c
      · simp only [hx, if_true, List.length_cons, List.count_cons]
        simp only [List.length_cons] at hlen
        simp [hlen]
      · simp only [hx, if_false, List.length_cons, List.count_cons]
        simp only [List.length_cons] at hlen
        have hbx : (x == c) = false := by simp [hx]
        simp [hbx, hlen]

theorem breakAtChar_eq (c : Char) : ∀ (l : List Char),
    (breakAtChar c l = (l, none) ∧ l.count c = 0) ∨
    (∃ pre rest, breakAtChar c l = (pre, some rest) ∧ l = pre ++ c :: rest ∧
      pre.count c = 0 ∧ rest.count c = l.count c - 1)
  | [] => by simp [breakAtChar]
  | x :: xs => by
    by_cases hx : x = c
    · right
      refine ⟨[], xs, ?_, ?_, ?_, ?_⟩
      · simp [breakAtChar, hx]
      · simp [hx]
      · simp
      · subst hx
        simp [List.count_cons]
    · rcases breakAtChar_eq c xs with ⟨hb, hcnt⟩ | ⟨pre, rest, hb, hsplit, hprec, hrestc⟩
      · left
        have hbx : (x == c) = false := by simp [hx]
        constructor
        · simp [breakAtChar, hx, hb]
        · simp [List.count_cons, hbx, hcnt]
      · right
        have hbx : (x == c) = false := by simp [hx]
        refine ⟨x :: pre, rest, ?_, ?_, ?_, ?_⟩
        · simp [breakAtChar, hx, hb]
        · rw [hsplit]; simp
        · simp [List.count_cons, hbx, hprec]
        · simp only [List.count_cons, hbx, Bool.false_eq_true, if_false]
          omega

theorem splitn3_cases (c : Char) (m : List Char) :
    (m.count c = 0 ∧ splitn c 3 m = [m]) ∨
    (m.count c = 1 ∧ ∃ a r, splitn c 3 m = [a, r]) ∨
    (2 ≤ m.count c ∧ ∃ a b r, splitn c 3 m = [a, b, r] ∧
      m = a ++ c :: (b ++ c :: r) ∧ a.count c = 0 ∧ b.count c = 0) := by
  rcases breakAtChar_eq c m with ⟨hb, hcnt⟩ | ⟨a, rest, hb, hsplit, hac, hrestc⟩
  · left
    exact ⟨hcnt, by simp [splitn, hb]⟩
  · have hcm : m.count c = a.count c + (rest.count c + 1) := by
      rw [hsplit, List.count_append, List.count_cons]
      simp
    rcases breakAtChar_eq c rest with ⟨hb2, hcnt2⟩ | ⟨b, r, hb2, hsplit2, hbc, hrc⟩
    · right; left
      constructor
      · omega
      · exact ⟨a, rest, by simp [splitn, hb, hb2]⟩
    · right; right
      have hcrest : rest.count c = b.count c + (r.count c + 1) := by
        rw [hsplit2, List.count_append, List.count_cons]
        simp
      refine ⟨by omega, a, b, r, ?_, ?_, hac, hbc⟩
      · simp [splitn, hb, hb2]
      · rw [hsplit, hsplit2]

/-- C2: the filename parser succeeds exactly when splitting the input on `-`
yields at least three pieces; on success the returned filename is the whole
input and the returned package is the prefix ending immediately before the
second-from-last `-` (the input is the package, then a `-`, then a
remainder containing exactly one further `-`); with fewer than three pieces
it fails with `InvalidFilename`. -/
theorem c2_filename_parse (s : String) :
    ((PackageFilename.tryFrom s).isOk ↔ 3 ≤ (splitAll '-' s.toList).length) ∧
    (∀ pf, PackageFilename.tryFrom s = .ok pf →
      pf.filename = s ∧
      ∃ rest, s.toList = pf.package.toList ++ '-' :: rest ∧ rest.count '-' = 1) := by
  have hsplit := splitAll_length '-' s.toList
  have hcrev : (s.toList.reverse).count '-' = s.toList.count '-' := List.count_reverse _ _
  rcases splitn3_cases '-' s.toList.reverse with ⟨h0, hsp⟩ | ⟨h1, a, r, hsp⟩ |
    ⟨h2, a, b, r, hsp, hm, ha, hb⟩
  · have htf : PackageFilename.tryFrom s = .error "invalid filename" := by
      unfold PackageFilename.tryFrom rsplitn
      rw [hsp]
      simp
    refine ⟨?_, ?_⟩
    · rw [htf, hsplit]
      simp only [Except.isOk]
      constructor
      · intro h; exact absurd h (by decide)
      · intro h; omega
    · intro pf h
      rw [htf] at h
      simp at h
  · have htf : PackageFilename.tryFrom s = .error "invalid filename" := by
      unfold PackageFilename.tryFrom rsplitn
      rw [hsp]
      simp
    refine ⟨?_, ?_⟩
    · rw [htf, hsplit]
      simp only [Except.isOk]
      constructor
      · intro h; exact absurd h (by decide)
      · intro h; omega
    · intro pf h
      rw [htf] at h
      simp at h
  · have htf : PackageFilename.tryFrom s = .ok ⟨String.mk r.reverse, s⟩ := by
      unfold PackageFilename.tryFrom rsplitn
      rw [hsp]
      simp
    refine ⟨?_, ?_⟩
    · rw [htf, hsplit]
      simp only [Except.isOk]
      constructor
      · intro _; omega
      · intro _; rfl
    · intro pf h
      rw [htf] at h
      simp only [Except.ok.injEq] at h
      subst h
      refine ⟨rfl, b.reverse ++ '-' :: a.reverse, ?_, ?_⟩
      · have hs2 : s.toList = (a ++ '-' :: (b ++ '-' :: r)).reverse := by
          rw [← hm, List.reverse_reverse]
        rw [hs2]
        show (a ++ '-' :: (b ++ '-' :: r)).reverse = r.reverse ++ '-' :: (b.reverse ++ '-' :: a.reverse)
        simp [List.reverse_append]
      · simp [List.count_append, List.count_cons, List.count_reverse, ha, hb]

/-- Witness for C2: the parser at the two conda filename shapes of the spec
and the failing `no-dashes` input. -/
theorem c2_filename_parse_witness :
    (PackageFilename.tryFrom "no-dashes").isOk = false ∧
    PackageFilename.tryFrom "clang-format-13-13.0.1-default_he082bbe_0.tar.bz2" =
      .ok ⟨"clang-format-13", "clang-format-13-13.0.1-default_he082bbe_0.tar.bz2"⟩ ∧
    ∃ rest, "clang-format-13-13.0.1-default_he082bbe_0.tar.bz2".toList =
      "clang-format-13".toList ++ '-' :: rest ∧ rest.count '-' = 1 := by
  refine ⟨by decide, by rfl, ?_⟩
  have h := (c2_filename_parse "clang-format-13-13.0.1-default_he082bbe_0.tar.bz2").2
    ⟨"clang-format-13", "clang-format-13-13.0.1-default_he082bbe_0.tar.bz2"⟩ (by rfl)
  exact h.2

/-! Stable sorting of the shallow parser, claim C3. -/

theorem pkgLe_total (a b : PackageFilename × Json) : (pkgLe a b || pkgLe b a) = true := by
  simp only [pkgLe, strCmp, Bool.or_eq_true, decide_eq_true_eq]
  rcases h : cmpChars a.1.package.toList b.1.package.toList with _ | _ | _
  · left; simp
  · left; simp
  · right
    rw [cmpChars_gt_iff.mp h]
    decide

theorem pkgLe_of_key_eq {a b : PackageFilename × Json} (h : a.1.package = b.1.package) :
    pkgLe a b = true := by
  simp only [pkgLe, strCmp, decide_eq_true_eq, h]
  rw [(cmpChars_eq_iff _ _).mpr rfl]
  decide

theorem pairwise_sortedKeysB :
    ∀ {l : List (PackageFilename × Json)},
      l.Pairwise (fun a b => pkgLe a b = true) → sortedKeysB l = true
  | [], _ => rfl
  | [_], _ => rfl
  | a :: b :: rest, h => by
    rw [List.pairwise_cons] at h
    simp only [sortedKeysB, Bool.and_eq_true]
    exact ⟨h.1 b (List.mem_cons_self _ _), pairwise_sortedKeysB h.2⟩

/-- C3: a successful shallow parse of a `packages` map returns the entries
sorted ascending by package name, and the sort is stable: for every key,
the subsequence of entries carrying that package name equals the
subsequence in original encounter order. In particular the filename-sorted
`clang-format` trio comes out in package order
`clang-format, clang-format, clang-format-13`. -/
theorem c3_shallow_sort (fields : List (String × Json))
    (entries es : List (PackageFilename × Json))
    (hp : entriesParse fields = .ok entries)
    (h : deserialize_filename_and_raw_record (Json.obj fields) = .ok es) :
    sortedKeysB es = true ∧
    ∀ k : String, es.filter (fun e => e.1.package = k) =
      entries.filter (fun e => e.1.package = k) := by
  haveI htot : IsTotal (PackageFilename × Json) pkgLeR :=
    ⟨fun a b => by simpa [pkgLeR] using pkgLe_total a b⟩
  haveI htrans : IsTrans (PackageFilename × Json) pkgLeR :=
    ⟨fun _ _ _ hab hbc => pkgLe_trans hab hbc⟩
  simp only [deserialize_filename_and_raw_record, hp, Except.ok.injEq] at h
  subst h
  constructor
  · exact pairwise_sortedKeysB
      (List.Pairwise.imp (fun h => h) (List.sorted_insertionSort pkgLeR entries))
  · intro k
    have hperm := List.perm_insertionSort pkgLeR entries
    have hpf : (entries.filter (fun e => decide (e.1.package = k))).Pairwise pkgLeR := by
      refine List.pairwise_of_forall_mem_list ?_
      intro a ha b hb
      have ha2 : a.1.package = k := by simpa using (List.mem_filter.mp ha).2
      have hb2 : b.1.package = k := by simpa using (List.mem_filter.mp hb).2
      exact pkgLe_of_key_eq (ha2.trans hb2.symm)
    have hsub1 : List.Sublist (entries.filter (fun e => decide (e.1.package = k)))
        (entries.insertionSort pkgLeR) :=
      List.sublist_insertionSort hpf (List.filter_sublist entries)
    have hsub2 : List.Sublist
        ((entries.filter (fun e => decide (e.1.package = k))).filter
          (fun e => decide (e.1.package = k)))
        ((entries.insertionSort pkgLeR).filter (fun e => decide (e.1.package = k))) :=
      List.Sublist.filter _ hsub1
    rw [List.filter_eq_self.mpr (fun a ha => (List.mem_filter.mp ha).2)] at hsub2
    have hlen : ((entries.insertionSort pkgLeR).filter
          (fun e => decide (e.1.package = k))).length =
        (entries.filter (fun e => decide (e.1.package = k))).length :=
      (List.Perm.filter _ hperm).length_eq
    exact (hsub2.eq_of_length hlen.symm).symm

/-- Witness for C3: the sort-discriminator trio of the spec, filename-sorted
on input, package-sorted and stable on output. -/
theorem c3_shallow_sort_witness :
    sortedKeysB
      [(⟨"clang-format", "clang-format-12.0.1-default_he082bbe_4.tar.bz2"⟩, Json.null),
       (⟨"clang-format", "clang-format-13.0.0-default_he082bbe_0.tar.bz2"⟩, Json.null),
       (⟨"clang-format-13", "clang-format-13-13.0.0-default_he082bbe_0.tar.bz2"⟩,
        Json.null)] = true ∧
    ([(⟨"clang-format", "clang-format-12.0.1-default_he082bbe_4.tar.bz2"⟩, Json.null),
      (⟨"clang-format", "clang-format-13.0.0-default_he082bbe_0.tar.bz2"⟩, Json.null),
      (⟨"clang-format-13", "clang-format-13-13.0.0-default_he082bbe_0.tar.bz2"⟩,
       Json.null)] : List (PackageFilename × Json)).filter
        (fun e => e.1.package = "clang-format") =
      ([(⟨"clang-format", "clang-format-12.0.1-default_he082bbe_4.tar.bz2"⟩, Json.null),
        (⟨"clang-format-13", "clang-format-13-13.0.0-default_he082bbe_0.tar.bz2"⟩, Json.null),
        (⟨"clang-format", "clang-format-13.0.0-default_he082bbe_0.tar.bz2"⟩,
         Json.null)] : List (PackageFilename × Json)).filter
        (fun e => e.1.package = "clang-format") := by
  have h := c3_shallow_sort clangTrio
    [(⟨"clang-format", "clang-format-12.0.1-default_he082bbe_4.tar.bz2"⟩, Json.null),
     (⟨"clang-format-13", "clang-format-13-13.0.0-default_he082bbe_0.tar.bz2"⟩, Json.null),
     (⟨"clang-format", "clang-format-13.0.0-default_he082bbe_0.tar.bz2"⟩, Json.null)]
    [(⟨"clang-format", "clang-format-12.0.1-default_he082bbe_4.tar.bz2"⟩, Json.null),
     (⟨"clang-format", "clang-format-13.0.0-default_he082bbe_0.tar.bz2"⟩, Json.null),
     (⟨"clang-format-13", "clang-format-13-13.0.0-default_he082bbe_0.tar.bz2"⟩, Json.null)]
    rfl rfl
  exact ⟨h.1, h.2 "clang-format"⟩

/-! Adjacent-duplicate collapsing, claim C4. -/

theorem clLt_of_le_ne {a b : List Char} (hle : cmpChars a b ≠ .gt) (hne : a ≠ b) :
    cmpChars a b = .lt := by
  rcases h : cmpChars a b with _ | _ | _
  · rfl
  · exact absurd ((cmpChars_eq_iff a b).mp h) hne
  · exact absurd h hle

theorem clLt_ne {a b : List Char} (h : cmpChars a b = .lt) : a ≠ b := by
  intro he
  subst he
  rw [(cmpChars_eq_iff a a).mpr rfl] at h
  exact absurd h (by decide)

theorem clLt_le_trans {a b c : List Char} (h1 : cmpChars a b = .lt)
    (h2 : cmpChars b c ≠ .gt) : cmpChars a c = .lt := by
  rcases h : cmpChars b c with _ | _ | _
  · exact cmpChars_lt_trans a b c h1 h
  · rw [← (cmpChars_eq_iff b c).mp h]
    exact h1
  · exact absurd h h2

theorem dedupAdj_cons_head : ∀ (a : String) (l : List String),
    ∃ t, dedupAdj (a :: l) = a :: t
  | _, [] => ⟨[], rfl⟩
  | a, b :: l => by
    by_cases h : a = b
    · obtain ⟨t, ht⟩ := dedupAdj_cons_head b l
      subst h
      exact ⟨t, by simpa [dedupAdj] using ht⟩
    · exact ⟨dedupAdj (b :: l), by simp [dedupAdj, h]⟩

theorem dedupAdj_chain : ∀ (l : List String), (dedupAdj l).Chain' (· ≠ ·)
  | [] => by simp [dedupAdj]
  | [a] => by simp [dedupAdj]
  | a :: b :: rest => by
    have ih := dedupAdj_chain (b :: rest)
    by_cases h : a = b
    · simpa [dedupAdj, h] using ih
    · obtain ⟨t, ht⟩ := dedupAdj_cons_head b rest
      simp only [dedupAdj, if_neg h, ht]
      rw [ht] at ih
      exact List.chain'_cons.mpr ⟨h, ih⟩

theorem dedupAdj_append : ∀ (a : String) (A B : List String), B ≠ [] →
    dedupAdj (a :: A ++ B) =
      if (a :: A).getLast? = B.head? then dedupAdj (a :: A) ++ (dedupAdj B).tail
      else dedupAdj (a :: A) ++ dedupAdj B
  | a, [], [], hB => absurd rfl hB
  | a, [], b :: B', _ => by
    by_cases hab : a = b
    · subst hab
      obtain ⟨t, ht⟩ := dedupAdj_cons_head a B'
      simp [dedupAdj, ht]
    · obtain ⟨t, ht⟩ := dedupAdj_cons_head b B'
      simp [dedupAdj, hab, ht, Option.some_inj]
  | a, a2 :: A', B, hB => by
    have ih := dedupAdj_append a2 A' B hB
    simp only [List.cons_append] at ih ⊢
    by_cases hab : a = a2
    · subst hab
      rw [show dedupAdj (a :: a :: (A' ++ B)) = dedupAdj (a :: (A' ++ B)) from by
            simp [dedupAdj],
          show dedupAdj (a :: a :: A') = dedupAdj (a :: A') from by simp [dedupAdj],
          List.getLast?_cons_cons]
      exact ih
    · rw [show dedupAdj (a :: a2 :: (A' ++ B)) = a :: dedupAdj (a2 :: (A' ++ B)) from by
            simp [dedupAdj, hab],
          show dedupAdj (a :: a2 :: A') = a :: dedupAdj (a2 :: A') from by
            simp [dedupAdj, hab],
          List.getLast?_cons_cons]
      rw [ih]
      by_cases hc : (a2 :: A').getLast? = B.head?
      · rw [if_pos hc, if_pos hc, List.cons_append]
      · rw [if_neg hc, if_neg hc, List.cons_append]

theorem count_dedupAdj : ∀ (l : List String),
    l.Pairwise (fun a b => cmpChars a.toList b.toList ≠ .gt) → ∀ (n : String),
    (dedupAdj l).count n = if n ∈ l then 1 else 0
  | [], _, n => by simp [dedupAdj]
  | [a], _, n => by
    by_cases h : n = a
    · subst h
      simp [dedupAdj]
    · simp [dedupAdj, List.count_cons, h, Ne.symm h]
  | a :: b :: rest, hp, n => by
    have hp2 := hp.of_cons
    have ih := count_dedupAdj (b :: rest) hp2 n
    by_cases hab : a = b
    · subst hab
      rw [show dedupAdj (a :: a :: rest) = dedupAdj (a :: rest) from by simp [dedupAdj], ih]
      have hmem : (n ∈ a :: a :: rest) ↔ (n ∈ a :: rest) := by
        simp only [List.mem_cons]
        tauto
      by_cases hn : n ∈ a :: rest
      · rw [if_pos hn, if_pos (hmem.mpr hn)]
      · rw [if_neg hn, if_neg (fun hx => hn (hmem.mp hx))]
    · rw [show dedupAdj (a :: b :: rest) = a :: dedupAdj (b :: rest) from by
            simp [dedupAdj, hab],
          List.count_cons, ih]
      by_cases hn : n = a
      · subst hn
        have hab2 : cmpChars n.toList b.toList ≠ .gt :=
          (List.pairwise_cons.mp hp).1 b (List.mem_cons_self _ _)
        have halt : cmpChars n.toList b.toList = .lt :=
          clLt_of_le_ne hab2 (fun he => hab (String.ext he))
        have hnotin : n ∉ b :: rest := by
          intro hmem
          rcases List.mem_cons.mp hmem with rfl | hmem2
          · exact hab rfl
          · have hbx : cmpChars b.toList n.toList ≠ .gt :=
              (List.pairwise_cons.mp hp2).1 n hmem2
            exact clLt_ne (clLt_le_trans halt hbx) rfl
        rw [if_neg hnotin, if_pos (List.mem_cons_self _ _)]
        simp
      · have hbeq : (a == n) = false := by
          simp [beq_iff_eq]
          exact fun he => hn he.symm
        rw [hbeq]
        have hmem : (n ∈ a :: b :: rest) ↔ (n ∈ b :: rest) := by
          simp only [List.mem_cons]
          constructor
          · intro h
            rcases h with h | h | h
            · exact absurd h hn
            · exact Or.inl h
            · exact Or.inr h
          · intro h
            tauto
        by_cases hx : n ∈ b :: rest
        · rw [if_pos hx, if_pos (hmem.mpr hx)]
          simp
        · rw [if_neg hx, if_neg (fun hy => hx (hmem.mp hy))]
          simp

theorem sortedKeysB_names_pairwise {l : List (PackageFilename × Json)}
    (hs : sortedKeysB l = true) :
    (l.map (fun e => e.1.package)).Pairwise
      (fun a b => cmpChars a.toList b.toList ≠ .gt) := by
  rw [List.pairwise_map]
  exact (sortedKeysB_pairwise hs).imp (fun {a b} h => by simpa [pkgLe, strCmp] using h)

theorem count_dedupAdj_append_two {A B : List String} {nm : String}
    (hpA : A.Pairwise (fun a b => cmpChars a.toList b.toList ≠ .gt))
    (hpB : B.Pairwise (fun a b => cmpChars a.toList b.toList ≠ .gt))
    (hmem1 : nm ∈ A) (hmem2 : nm ∈ B)
    (hnotb : ¬(A.getLast? = some nm ∧ B.head? = some nm)) :
    2 ≤ (dedupAdj (A ++ B)).count nm := by
  obtain ⟨a, A', rfl⟩ := List.exists_cons_of_ne_nil (List.ne_nil_of_mem hmem1)
  obtain ⟨bb, B', rfl⟩ := List.exists_cons_of_ne_nil (List.ne_nil_of_mem hmem2)
  have hcntA : (dedupAdj (a :: A')).count nm = 1 := by
    rw [count_dedupAdj (a :: A') hpA nm, if_pos hmem1]
  have hcntB : (dedupAdj (bb :: B')).count nm = 1 := by
    rw [count_dedupAdj (bb :: B') hpB nm, if_pos hmem2]
  rw [dedupAdj_append a A' (bb :: B') (by simp)]
  by_cases hc : (a :: A').getLast? = (bb :: B').head?
  · rw [if_pos hc, List.count_append, hcntA]
    have hbbne : (bb == nm) = false := by
      rw [beq_eq_false_iff_ne]
      intro he
      subst he
      exact hnotb ⟨by simpa using hc, rfl⟩
    obtain ⟨tB, htB⟩ := dedupAdj_cons_head bb B'
    rw [htB] at hcntB
    rw [List.count_cons, hbbne] at hcntB
    simp at hcntB
    rw [htB]
    simp only [List.tail_cons]
    omega
  · rw [if_neg hc, List.count_append, hcntA, hcntB]

/-- C4: `package_names` is the adjacent-duplicate collapse of the legacy
name sequence followed by the conda name sequence and contains no adjacent
duplicates; but duplicates across the two sequences are retained only when
they are not adjacent at the boundary: a name present in both sequences
appears at least twice unless it both ends the legacy sequence and begins
the conda sequence (in that case its occurrences merge into one, see the
counterexample). -/
theorem c4_package_names (h : SparseRepoData)
    (hs1 : sortedKeysB h.repo_data.packages = true)
    (hs2 : sortedKeysB h.repo_data.conda_packages = true) :
    (SparseRepoData.package_names h).Chain' (· ≠ ·) ∧
    SparseRepoData.package_names h =
      dedupAdj (h.repo_data.packages.map (fun e => e.1.package) ++
        h.repo_data.conda_packages.map (fun e => e.1.package)) ∧
    ∀ nm, nm ∈ h.repo_data.packages.map (fun e => e.1.package) →
      nm ∈ h.repo_data.conda_packages.map (fun e => e.1.package) →
      ¬((h.repo_data.packages.map (fun e => e.1.package)).getLast? = some nm ∧
        (h.repo_data.conda_packages.map (fun e => e.1.package)).head? = some nm) →
      2 ≤ (SparseRepoData.package_names h).count nm := by
  have hpn : SparseRepoData.package_names h =
      dedupAdj (h.repo_data.packages.map (fun e => e.1.package) ++
        h.repo_data.conda_packages.map (fun e => e.1.package)) := by
    simp [SparseRepoData.package_names, List.map_append]
  refine ⟨?_, hpn, ?_⟩
  · rw [hpn]
    exact dedupAdj_chain _
  · intro nm h1 h2 h3
    rw [hpn]
    exact count_dedupAdj_append_two (sortedKeysB_names_pairwise hs1)
      (sortedKeysB_names_pairwise hs2) h1 h2 h3

/-- C4 (counterexample): `zlib` is present in both sequences of the handle,
yet `package_names` lists it only once, because its two occurrences are
adjacent at the legacy/conda boundary of the chained iterator and `dedup`
collapses them. -/
theorem c4_counterexample :
    SparseRepoData.package_names zlibBothHandle = ["zlib"] ∧
    "zlib" ∈ zlibBothHandle.repo_data.packages.map (fun e => e.1.package) ∧
    "zlib" ∈ zlibBothHandle.repo_data.conda_packages.map (fun e => e.1.package) ∧
    (SparseRepoData.package_names zlibBothHandle).count "zlib" = 1 := by
  decide

/-- Witness for C4: on a handle where `aaa` occurs in both sequences and is
not boundary-adjacent, `package_names` has no adjacent duplicates and lists
`aaa` twice. -/
theorem c4_package_names_witness :
    (SparseRepoData.package_names dupAcrossHandle).Chain' (· ≠ ·) ∧
    2 ≤ (SparseRepoData.package_names dupAcrossHandle).count "aaa" := by
  have h := c4_package_names dupAcrossHandle (by decide) (by decide)
  exact ⟨h.1, h.2.2 "aaa" (by decide) (by decide) (by decide)⟩

/-! Exact failure characterization of the shallow parser, claim C6. -/

theorem entriesParse_isOk : ∀ (fields : List (String × Json)),
    (entriesParse fields).isOk = fields.all (fun kv => (PackageFilename.tryFrom kv.1).isOk)
  | [] => rfl
  | (k, v) :: rest => by
    have ih := entriesParse_isOk rest
    simp only [entriesParse, List.all_cons]
    cases ht : PackageFilename.tryFrom k with
    | error e => simp [Except.isOk, Except.toBool]
    | ok pf =>
      cases hr : entriesParse rest with
      | ok es =>
        rw [hr] at ih
        simp only [Except.isOk, Except.toBool] at ih ⊢
        simp [← ih]
      | error e =>
        rw [hr] at ih
        simp only [Except.isOk, Except.toBool] at ih ⊢
        simp [← ih]

theorem deserialize_isOk : ∀ (v : Json),
    (deserialize_filename_and_raw_record v).isOk = packagesMapOk v
  | .null => rfl
  | .bool _ => rfl
  | .num _ => rfl
  | .str _ => rfl
  | .arr _ => rfl
  | .obj fields => by
    have ih := entriesParse_isOk fields
    simp only [deserialize_filename_and_raw_record, packagesMapOk]
    cases hr : entriesParse fields with
    | ok es =>
      rw [hr] at ih
      simp only [Except.isOk, Except.toBool] at ih ⊢
      exact ih
    | error e =>
      rw [hr] at ih
      simp only [Except.isOk, Except.toBool] at ih ⊢
      exact ih

theorem parseInfoField_isOk : ∀ (v : Option Json),
    (parseInfoField v).isOk = infoFieldOk v
  | none => rfl
  | some .null => rfl
  | some (.bool _) => rfl
  | some (.num _) => rfl
  | some (.str _) => rfl
  | some (.arr _) => rfl
  | some (.obj fields) => by
    simp only [parseInfoField, infoFieldOk]
    cases jLookup "base_url" fields with
    | none => rfl
    | some jv => cases jv <;> rfl

theorem lazyParse_isOk (j : Json) : (LazyRepoData.parse j).isOk = lazyOk j := by
  cases j with
  | null => rfl
  | bool b => rfl
  | num n => rfl
  | str s => rfl
  | arr xs => rfl
  | obj fields =>
    simp only [LazyRepoData.parse, lazyOk]
    cases hi : parseInfoField (jLookup "info" fields) with
    | error e =>
      have hfo : infoFieldOk (jLookup "info" fields) = false := by
        rw [← parseInfoField_isOk, hi]
        rfl
      rw [hfo]
      simp [Except.isOk, Except.toBool]
    | ok info =>
      have hfo : infoFieldOk (jLookup "info" fields) = true := by
        rw [← parseInfoField_isOk, hi]
        rfl
      rw [hfo]
      simp only [Bool.true_and, Bool.and_true]
      cases hp : jLookup "packages" fields with
      | none => simp [Except.isOk, Except.toBool]
      | some pv =>
        simp only []
        cases hd : deserialize_filename_and_raw_record pv with
        | error e =>
          have hpo : packagesMapOk pv = false := by
            rw [← deserialize_isOk, hd]
            rfl
          rw [hpo]
          simp [Except.isOk, Except.toBool]
        | ok packages =>
          have hpo : packagesMapOk pv = true := by
            rw [← deserialize_isOk, hd]
            rfl
          rw [hpo]
          simp only [Bool.true_and]
          cases hc : jLookup "packages.conda" fields with
          | none => simp [Except.isOk, Except.toBool]
          | some cv =>
            simp only []
            cases hd2 : deserialize_filename_and_raw_record cv with
            | error e =>
              have hco : packagesMapOk cv = false := by
                rw [← deserialize_isOk, hd2]
                rfl
              rw [hco]
              simp [Except.isOk, Except.toBool]
            | ok conda =>
              have hco : packagesMapOk cv = true := by
                rw [← deserialize_isOk, hd2]
                rfl
              rw [hco]
              simp [Except.isOk, Except.toBool]

/-- C6 (amended): shallow parsing fails exactly when the document is not a
JSON object, the `packages` key is absent, a present `packages` or
`packages.conda` value is not a map or holds a filename key that fails the
filename parse, or a present `info` value is neither null nor a valid info
object; a document without the `packages.conda` key parses with an empty
conda sequence, and a missing or null `info` yields no info block. -/
theorem c6_shallow_errors :
    (∀ j : Json, (LazyRepoData.parse j).isOk = lazyOk j) ∧
    (∀ fields ld, LazyRepoData.parse (Json.obj fields) = .ok ld →
      (jLookup "packages.conda" fields = none → ld.conda_packages.isEmpty = true) ∧
      ((jLookup "info" fields = none ∨ jLookup "info" fields = some Json.null) →
        ld.info = none)) := by
  refine ⟨lazyParse_isOk, ?_⟩
  intro fields ld h
  simp only [LazyRepoData.parse] at h
  cases hi : parseInfoField (jLookup "info" fields) with
  | error e => rw [hi] at h; simp at h
  | ok info =>
    rw [hi] at h
    simp only [] at h
    cases hp : jLookup "packages" fields with
    | none => rw [hp] at h; simp at h
    | some pv =>
      rw [hp] at h
      simp only [] at h
      cases hd : deserialize_filename_and_raw_record pv with
      | error e => rw [hd] at h; simp at h
      | ok packages =>
        rw [hd] at h
        simp only [] at h
        constructor
        · intro hcnone
          rw [hcnone] at h
          simp only [Except.ok.injEq] at h
          subst h
          rfl
        · intro hinone
          have hiok : parseInfoField (jLookup "info" fields) = .ok none := by
            rcases hinone with h1 | h1 <;> rw [h1] <;> rfl
          rw [hi] at hiok
          simp only [Except.ok.injEq] at hiok
          subst hiok
          cases hc : jLookup "packages.conda" fields with
          | none =>
            rw [hc] at h
            simp only [Except.ok.injEq] at h
            subst h
            rfl
          | some cv =>
            rw [hc] at h
            simp only [] at h
            cases hd2 : deserialize_filename_and_raw_record cv with
            | error e => rw [hd2] at h; simp at h
            | ok conda =>
              rw [hd2] at h
              simp only [Except.ok.injEq] at h
              subst h
              rfl

/-- C6 (counterexample): the empty JSON object satisfies none of the claimed
failure conditions — it is an object, neither sequence key is present and
no filename key exists — yet the shallow parse fails, because the
`packages` field is required and carries no serde default. -/
theorem c6_counterexample :
    claimedShallowFailure (Json.obj []) = false ∧
    (LazyRepoData.parse (Json.obj [])).isOk = false := by
  decide

/-- Witness for C6: a minimal document with only an empty `packages` map
parses successfully with no info and an empty conda sequence. -/
theorem c6_shallow_errors_witness :
    (LazyRepoData.parse (Json.obj [("packages", Json.obj [])])).isOk =
      lazyOk (Json.obj [("packages", Json.obj [])]) ∧
    (⟨none, [], []⟩ : LazyRepoData).conda_packages.isEmpty = true ∧
    (⟨none, [], []⟩ : LazyRepoData).info = none := by
  refine ⟨c6_shallow_errors.1 _, ?_, ?_⟩
  · exact (c6_shallow_errors.2 [("packages", Json.obj [])] ⟨none, [], []⟩ rfl).1 rfl
  · exact (c6_shallow_errors.2 [("packages", Json.obj [])] ⟨none, [], []⟩ rfl).2 (Or.inl rfl)

/-! Root de-duplication, claim C8. -/

theorem dedupFold_aux_nodup : ∀ (l acc : List PackageName), acc.Nodup →
    (l.foldl (fun s n => if n ∈ s then s else s ++ [n]) acc).Nodup
  | [], _, h => h
  | x :: xs, acc, h => by
    simp only [List.foldl_cons]
    by_cases hx : x ∈ acc
    · rw [if_pos hx]
      exact dedupFold_aux_nodup xs acc h
    · rw [if_neg hx]
      refine dedupFold_aux_nodup xs (acc ++ [x]) ?_
      rw [List.nodup_append]
      refine ⟨h, List.nodup_singleton x, ?_⟩
      intro a ha hb
      rw [List.mem_singleton] at hb
      subst hb
      exact hx ha

theorem dedupFold_of_nodup : ∀ (l acc : List PackageName), (∀ x ∈ l, x ∉ acc) → l.Nodup →
    l.foldl (fun s n => if n ∈ s then s else s ++ [n]) acc = acc ++ l
  | [], acc, _, _ => by simp
  | x :: xs, acc, hdis, hnd => by
    simp only [List.foldl_cons]
    rw [if_neg (hdis x (List.mem_cons_self _ _))]
    rw [dedupFold_of_nodup xs (acc ++ [x]) ?_ hnd.of_cons]
    · simp
    · intro y hy
      simp only [List.mem_append, List.mem_singleton]
      rintro (h1 | rfl)
      · exact hdis y (List.mem_cons_of_mem _ hy) h1
      · exact (List.nodup_cons.mp hnd).1 hy

theorem dedupFold_idem (l : List PackageName) : dedupFold (dedupFold l) = dedupFold l := by
  have h1 : (dedupFold l).Nodup := dedupFold_aux_nodup l [] List.nodup_nil
  have h2 := dedupFold_of_nodup (dedupFold l) [] (by simp) h1
  simp only [dedupFold] at h2 ⊢
  rw [h2]
  simp

/-- C8: the recursive loader reduces its roots to a set before the
traversal: loading with duplicate roots returns exactly the same value as
loading with the de-duplicated roots. -/
theorem c8_root_dedup (repos : List SparseRepoData) (roots : List PackageName)
    (patch_function : Option (PackageRecord → PackageRecord)) :
    load_records_recursive repos roots patch_function =
      load_records_recursive repos (dedupFold roots) patch_function := by
  simp only [load_records_recursive]
  rw [dedupFold_idem]

/-! The panic channel of record materialization, claim C10. -/

theorem materializeRecords_no_fatal {base_url : Option String} {channel : Channel}
    {channel_name subdir : String} (hbase : channel.base_url.cannotBeABase = false) :
    ∀ (entries : List (PackageFilename × Json)) (m : String),
      materializeRecords base_url channel channel_name subdir entries ≠ .fatal m
  | [], m => by simp [materializeRecords]
  | (key, raw) :: rest, m => by
    simp only [materializeRecords]
    cases hp : parsePackageRecord raw with
    | error e => simp
    | ok pre =>
      simp only [Url.join, hbase, Bool.false_eq_true, if_false]
      cases hm : materializeRecords base_url channel channel_name subdir rest with
      | ok tail => simp
      | err e => simp
      | fatal m2 => exact absurd hm (materializeRecords_no_fatal hbase rest m2)

theorem parse_records_no_fatal {package_name : PackageName}
    {packages : List (PackageFilename × Json)} {base_url : Option String} {channel : Channel}
    {subdir : String} {patch_function : Option (PackageRecord → PackageRecord)}
    (hbase : channel.base_url.cannotBeABase = false) (m : String) :
    parse_records package_name packages base_url channel subdir patch_function ≠ .fatal m := by
  simp only [parse_records]
  cases hm : materializeRecords base_url channel channel.canonical_name subdir
      ((packages.drop
          (lowerBoundBy (fun e => strCmp e.1.package package_name.as_normalized) packages
            entryDefault)).take
        (upperBoundBy (fun e => strCmp e.1.package package_name.as_normalized) packages
            entryDefault -
          lowerBoundBy (fun e => strCmp e.1.package package_name.as_normalized) packages
            entryDefault)) with
  | ok records => simp
  | err e => simp
  | fatal m2 => exact absurd hm (materializeRecords_no_fatal hbase _ m2)

theorem loadBoth_no_fatal {repo : SparseRepoData} {package_name : PackageName}
    {patch_function : Option (PackageRecord → PackageRecord)}
    (hbase : repo.channel.base_url.cannotBeABase = false) (m : String) :
    loadBoth repo package_name patch_function ≠ .fatal m := by
  simp only [loadBoth]
  cases h1 : parse_records package_name repo.repo_data.packages repo.repo_data.baseUrlField
      repo.channel repo.subdir patch_function with
  | err e => simp
  | fatal m2 => exact absurd h1 (parse_records_no_fatal hbase m2)
  | ok recs1 =>
    cases h2 : parse_records package_name repo.repo_data.conda_packages
        repo.repo_data.baseUrlField repo.channel repo.subdir patch_function with
    | err e => simp
    | fatal m2 => exact absurd h2 (parse_records_no_fatal hbase m2)
    | ok recs2 => simp

theorem lrrRepos_no_fatal {patch_function : Option (PackageRecord → PackageRecord)}
    {p : PackageName} :
    ∀ (repos : List SparseRepoData),
      (∀ repo ∈ repos, repo.channel.base_url.cannotBeABase = false) →
      ∀ (seen pending : List PackageName) (m : String),
        lrrRepos patch_function p repos seen pending ≠ .fatal m
  | [], _, seen, pending, m => by simp [lrrRepos]
  | repo :: rest, hbase, seen, pending, m => by
    simp only [lrrRepos]
    cases hl : loadBoth repo p patch_function with
    | err e => simp
    | fatal m2 =>
      exact absurd hl (loadBoth_no_fatal (hbase repo (List.mem_cons_self _ _)) m2)
    | ok records =>
      simp only []
      cases hr : lrrRepos patch_function p rest (scanDeps records (seen, pending)).1
          (scanDeps records (seen, pending)).2 with
      | ok out =>
        obtain ⟨tails, seen2, pending2⟩ := out
        simp
      | err e => simp
      | fatal m2 =>
        exact absurd hr (lrrRepos_no_fatal rest
          (fun r hr2 => hbase r (List.mem_cons_of_mem _ hr2)) _ _ m2)

theorem lrrGo_no_fatal {repos : List SparseRepoData}
    {patch_function : Option (PackageRecord → PackageRecord)}
    (hbase : ∀ repo ∈ repos, repo.channel.base_url.cannotBeABase = false) :
    ∀ (fuel : Nat) (pending seen : List PackageName) (result : List (List RepoDataRecord))
      (processed : List PackageName) (m : String),
      lrrGo repos patch_function fuel pending seen result processed ≠ some (.fatal m)
  | fuel, [], seen, result, processed, m => by simp [lrrGo]
  | 0, p :: rest, seen, result, processed, m => by simp [lrrGo]
  | fuel + 1, p :: rest, seen, result, processed, m => by
    simp only [lrrGo]
    cases hr : lrrRepos patch_function p repos seen rest with
    | err e => simp
    | fatal m2 => exact absurd hr (lrrRepos_no_fatal repos hbase seen rest m2)
    | ok tr =>
      obtain ⟨newRecords, seen2, pending2⟩ := tr
      exact lrrGo_no_fatal hbase fuel pending2 seen2 _ _ m

/-- C10: the error channel of materialization is not total: a failing join
of the record subdir onto the channel base URL is a panic (the `expect`),
exhibited by the cannot-be-a-base channel in the last conjunct; under the
precondition that every channel base URL accepts path joins, the panic
branch is unreachable and `load_records` and `load_records_recursive`
return only `ok` or `err`. -/
theorem c10_no_panic :
    (∀ (h : SparseRepoData) (n : PackageName) (m : String),
      h.channel.base_url.cannotBeABase = false →
      SparseRepoData.load_records h n ≠ .fatal m) ∧
    (∀ (repos : List SparseRepoData) (roots : List PackageName)
       (patch_function : Option (PackageRecord → PackageRecord)) (m : String),
      (∀ repo ∈ repos, repo.channel.base_url.cannotBeABase = false) →
      load_records_recursive repos roots patch_function ≠ some (.fatal m)) ∧
    parse_records (PackageName.new_unchecked "foo") [fooBarEntry] none badBaseChannel
      "linux-64" none = .fatal "failed determine repo_base_url" := by
  refine ⟨?_, ?_, rfl⟩
  · intro h n m hbase
    exact loadBoth_no_fatal hbase m
  · intro repos roots patch_function m hbase
    simp only [load_records_recursive]
    cases hg : lrrGo repos patch_function (lrrFuel repos + (dedupFold roots).length + 1)
        (dedupFold roots) (dedupFold roots) (repos.map (fun _ => [])) [] with
    | none => simp
    | some out =>
      cases out with
      | ok v => simp
      | err e => simp
      | fatal m2 => exact absurd hg (lrrGo_no_fatal hbase _ _ _ _ _ m2)

/-- Witness for C10: no panic on the concrete well-based handles. -/
theorem c10_no_panic_witness :
    SparseRepoData.load_records nameMismatchHandle (PackageName.new_unchecked "foo") ≠
      .fatal "failed determine repo_base_url" ∧
    load_records_recursive [depChainHandle] [PackageName.new_unchecked "a"] none ≠
      some (.fatal "failed determine repo_base_url") :=
  ⟨c10_no_panic.1 nameMismatchHandle (PackageName.new_unchecked "foo") _ (by decide),
   c10_no_panic.2.1 [depChainHandle] [PackageName.new_unchecked "a"] none _ (by decide)⟩

/-! Hook precedence in the recursive loader, claim C9. -/

theorem parse_records_patch (package_name : PackageName)
    (packages : List (PackageFilename × Json)) (base_url : Option String) (channel : Channel)
    (subdir : String) (patch_fn : PackageRecord → PackageRecord) :
    parse_records package_name packages base_url channel subdir (some patch_fn) =
      mapOk (List.map (patchApplied patch_fn))
        (parse_records package_name packages base_url channel subdir none) := by
  simp only [parse_records]
  cases materializeRecords base_url channel channel.canonical_name subdir
      ((packages.drop
          (lowerBoundBy (fun e => strCmp e.1.package package_name.as_normalized) packages
            entryDefault)).take
        (upperBoundBy (fun e => strCmp e.1.package package_name.as_normalized) packages
            entryDefault -
          lowerBoundBy (fun e => strCmp e.1.package package_name.as_normalized) packages
            entryDefault)) with
  | ok records => simp [mapOk, applyPatch, patchApplied]
  | err e => rfl
  | fatal m => rfl

theorem loadBoth_eraseHook (repo : SparseRepoData) (p : PackageName)
    (patch_function : Option (PackageRecord → PackageRecord)) :
    loadBoth (eraseHook repo) p patch_function = loadBoth repo p patch_function :=
  rfl

theorem lrrRepos_eraseHook (patch_function : Option (PackageRecord → PackageRecord))
    (p : PackageName) :
    ∀ (repos : List SparseRepoData) (seen pending : List PackageName),
      lrrRepos patch_function p (repos.map eraseHook) seen pending =
        lrrRepos patch_function p repos seen pending
  | [], _, _ => rfl
  | repo :: rest, seen, pending => by
    simp only [List.map_cons, lrrRepos, loadBoth_eraseHook]
    cases loadBoth repo p patch_function with
    | err e => rfl
    | fatal m => rfl
    | ok records =>
      simp only []
      rw [lrrRepos_eraseHook patch_function p rest (scanDeps records (seen, pending)).1
        (scanDeps records (seen, pending)).2]

theorem lrrGo_eraseHook (patch_function : Option (PackageRecord → PackageRecord)) :
    ∀ (repos : List SparseRepoData) (fuel : Nat) (pending seen : List PackageName)
      (result : List (List RepoDataRecord)) (processed : List PackageName),
      lrrGo (repos.map eraseHook) patch_function fuel pending seen result processed =
        lrrGo repos patch_function fuel pending seen result processed
  | repos, fuel, [], seen, result, processed => by simp [lrrGo]
  | repos, 0, p :: rest, seen, result, processed => by simp [lrrGo]
  | repos, fuel + 1, p :: rest, seen, result, processed => by
    simp only [lrrGo, lrrRepos_eraseHook]
    cases lrrRepos patch_function p repos seen rest with
    | err e => rfl
    | fatal m => rfl
    | ok tr =>
      obtain ⟨newRecords, seen2, pending2⟩ := tr
      simp only []
      exact lrrGo_eraseHook patch_function repos fuel pending2 seen2 _ _

/-- C9: the patch hook passed to the recursive loader is the one applied to
every record materialized during the whole traversal — `parse_records`
with a hook returns the hook mapped over the unpatched records — and the
per-handle hooks are consulted for none of them: erasing every handle hook
leaves the traversal result unchanged, for any passed hook including
`none`. -/
theorem c9_hook_precedence :
    (∀ (package_name : PackageName) (packages : List (PackageFilename × Json))
       (base_url : Option String) (channel : Channel) (subdir : String)
       (patch_fn : PackageRecord → PackageRecord),
      parse_records package_name packages base_url channel subdir (some patch_fn) =
        mapOk (List.map (patchApplied patch_fn))
          (parse_records package_name packages base_url channel subdir none)) ∧
    (∀ (repos : List SparseRepoData) (roots : List PackageName)
       (patch_function : Option (PackageRecord → PackageRecord)),
      load_records_recursive (repos.map eraseHook) roots patch_function =
        load_records_recursive repos roots patch_function) := by
  refine ⟨parse_records_patch, ?_⟩
  intro repos roots patch_function
  simp only [load_records_recursive]
  have hfuel : lrrFuel (repos.map eraseHook) = lrrFuel repos := by
    simp only [lrrFuel, List.map_map]
    rfl
  have hinit : (repos.map eraseHook).map (fun _ => ([] : List RepoDataRecord)) =
      repos.map (fun _ => ([] : List RepoDataRecord)) := by
    simp only [List.map_map]
    rfl
  rw [hfuel, hinit, lrrGo_eraseHook]

/-! Dependency extraction and single processing, claim C5. -/

theorem addDep_seen_mono (sp : List PackageName × List PackageName) (d : String) :
    ∀ x ∈ sp.1, x ∈ (addDep sp d).1 := by
  simp only [addDep]
  by_cases hd : depName d ∈ sp.1
  · rw [if_pos hd]
    exact fun x hx => hx
  · rw [if_neg hd]
    exact fun x hx => List.mem_append_left _ hx

theorem addDep_mem (sp : List PackageName × List PackageName) (d : String) :
    depName d ∈ (addDep sp d).1 := by
  simp only [addDep]
  by_cases hd : depName d ∈ sp.1
  · rw [if_pos hd]
    exact hd
  · rw [if_neg hd]
    exact List.mem_append_right _ (List.mem_singleton_self _)

theorem addDep_inv (ctx : List PackageName) (sp : List PackageName × List PackageName)
    (d : String) (h1 : (ctx ++ sp.2).Nodup) (h2 : ∀ x ∈ ctx ++ sp.2, x ∈ sp.1) :
    (ctx ++ (addDep sp d).2).Nodup ∧ ∀ x ∈ ctx ++ (addDep sp d).2, x ∈ (addDep sp d).1 := by
  simp only [addDep]
  by_cases hd : depName d ∈ sp.1
  · rw [if_pos hd]
    exact ⟨h1, h2⟩
  · rw [if_neg hd]
    simp only []
    constructor
    · rw [← List.append_assoc, List.nodup_append]
      refine ⟨h1, List.nodup_singleton _, ?_⟩
      intro a ha hb
      rw [List.mem_singleton] at hb
      subst hb
      exact hd (h2 _ ha)
    · intro x hx
      rw [← List.append_assoc] at hx
      rcases List.mem_append.mp hx with hx | hx
      · exact List.mem_append_left _ (h2 x hx)
      · rw [List.mem_singleton] at hx
        subst hx
        exact List.mem_append_right _ (List.mem_singleton_self _)

theorem foldDeps_seen_mono : ∀ (deps : List String) (sp : List PackageName × List PackageName),
    ∀ x ∈ sp.1, x ∈ (deps.foldl addDep sp).1
  | [], _ => fun _ hx => hx
  | d :: rest, sp => fun x hx =>
    foldDeps_seen_mono rest (addDep sp d) x (addDep_seen_mono sp d x hx)

theorem foldDeps_mem : ∀ (deps : List String) (sp : List PackageName × List PackageName),
    ∀ d ∈ deps, depName d ∈ (deps.foldl addDep sp).1
  | [], _ => by simp
  | d :: rest, sp => by
    intro d2 hd2
    rcases List.mem_cons.mp hd2 with rfl | hd2
    · exact foldDeps_seen_mono rest (addDep sp d2) _ (addDep_mem sp d2)
    · exact foldDeps_mem rest (addDep sp d) d2 hd2

theorem foldDeps_inv (ctx : List PackageName) :
    ∀ (deps : List String) (sp : List PackageName × List PackageName),
      (ctx ++ sp.2).Nodup → (∀ x ∈ ctx ++ sp.2, x ∈ sp.1) →
      (ctx ++ (deps.foldl addDep sp).2).Nodup ∧
        ∀ x ∈ ctx ++ (deps.foldl addDep sp).2, x ∈ (deps.foldl addDep sp).1
  | [], _, h1, h2 => ⟨h1, h2⟩
  | d :: rest, sp, h1, h2 => by
    have h := addDep_inv ctx sp d h1 h2
    exact foldDeps_inv ctx rest (addDep sp d) h.1 h.2

theorem scanDeps_seen_mono :
    ∀ (records : List RepoDataRecord) (sp : List PackageName × List PackageName),
      ∀ x ∈ sp.1, x ∈ (scanDeps records sp).1
  | [], _ => fun _ hx => hx
  | r :: rest, sp => fun x hx =>
    scanDeps_seen_mono rest (r.package_record.depends.foldl addDep sp) x
      (foldDeps_seen_mono r.package_record.depends sp x hx)

theorem scanDeps_mem :
    ∀ (records : List RepoDataRecord) (sp : List PackageName × List PackageName),
      ∀ r ∈ records, ∀ d ∈ r.package_record.depends, depName d ∈ (scanDeps records sp).1
  | [], _ => by simp
  | r :: rest, sp => by
    intro r2 hr2 d hd
    rcases List.mem_cons.mp hr2 with rfl | hr2
    · exact scanDeps_seen_mono rest _ _ (foldDeps_mem r2.package_record.depends sp d hd)
    · exact scanDeps_mem rest _ r2 hr2 d hd

theorem scanDeps_inv (ctx : List PackageName) :
    ∀ (records : List RepoDataRecord) (sp : List PackageName × List PackageName),
      (ctx ++ sp.2).Nodup → (∀ x ∈ ctx ++ sp.2, x ∈ sp.1) →
      (ctx ++ (scanDeps records sp).2).Nodup ∧
        ∀ x ∈ ctx ++ (scanDeps records sp).2, x ∈ (scanDeps records sp).1
  | [], _, h1, h2 => ⟨h1, h2⟩
  | r :: rest, sp, h1, h2 => by
    have h := foldDeps_inv ctx r.package_record.depends sp h1 h2
    exact scanDeps_inv ctx rest _ h.1 h.2

theorem mem_zipWith_append {α : Type} : ∀ (as bs : List (List α)) (x : List α),
    x ∈ List.zipWith (fun a b => a ++ b) as bs → ∃ a ∈ as, ∃ b ∈ bs, x = a ++ b
  | [], _, x, h => by simp at h
  | _ :: _, [], x, h => by simp at h
  | a :: as, b :: bs, x, h => by
    rw [List.zipWith_cons_cons] at h
    rcases List.mem_cons.mp h with rfl | h
    · exact ⟨a, List.mem_cons_self _ _, b, List.mem_cons_self _ _, rfl⟩
    · obtain ⟨a2, ha, b2, hb, hx⟩ := mem_zipWith_append as bs x h
      exact ⟨a2, List.mem_cons_of_mem _ ha, b2, List.mem_cons_of_mem _ hb, hx⟩

theorem lrrRepos_inv (patch_function : Option (PackageRecord → PackageRecord))
    (p : PackageName) (ctx : List PackageName) :
    ∀ (repos : List SparseRepoData) (seen pending : List PackageName)
      (out : List (List RepoDataRecord) × List PackageName × List PackageName),
      lrrRepos patch_function p repos seen pending = .ok out →
      (ctx ++ pending).Nodup → (∀ x ∈ ctx ++ pending, x ∈ seen) →
      ((ctx ++ out.2.2).Nodup ∧ (∀ x ∈ ctx ++ out.2.2, x ∈ out.2.1)) ∧
      (∀ x ∈ seen, x ∈ out.2.1) ∧
      (∀ rs ∈ out.1, ∀ r ∈ rs, ∀ d ∈ r.package_record.depends, depName d ∈ out.2.1)
  | [], seen, pending, out, h, h1, h2 => by
    simp only [lrrRepos, Outcome.ok.injEq] at h
    subst h
    exact ⟨⟨h1, h2⟩, fun _ hx => hx, by simp⟩
  | repo :: rest, seen, pending, out, h, h1, h2 => by
    simp only [lrrRepos] at h
    cases hl : loadBoth repo p patch_function with
    | err e => rw [hl] at h; simp at h
    | fatal m => rw [hl] at h; simp at h
    | ok records =>
      rw [hl] at h
      simp only [] at h
      cases hr : lrrRepos patch_function p rest (scanDeps records (seen, pending)).1
          (scanDeps records (seen, pending)).2 with
      | err e => rw [hr] at h; simp at h
      | fatal m => rw [hr] at h; simp at h
      | ok out2 =>
        rw [hr] at h
        obtain ⟨tails, seen2, pending2⟩ := out2
        simp only [Outcome.ok.injEq] at h
        subst h
        have hscan := scanDeps_inv ctx records (seen, pending) h1 h2
        have hrec := lrrRepos_inv patch_function p ctx rest
          (scanDeps records (seen, pending)).1 (scanDeps records (seen, pending)).2
          (tails, seen2, pending2) hr hscan.1 hscan.2
        refine ⟨hrec.1, ?_, ?_⟩
        · intro x hx
          exact hrec.2.1 x (scanDeps_seen_mono records (seen, pending) x hx)
        · intro rs hrs r hrrec d hd
          rcases List.mem_cons.mp hrs with rfl | hrs
          · exact hrec.2.1 _ (scanDeps_mem rs (seen, pending) r hrrec d hd)
          · exact hrec.2.2 rs hrs r hrrec d hd

theorem lrrGo_inv (repos : List SparseRepoData)
    (patch_function : Option (PackageRecord → PackageRecord)) :
    ∀ (fuel : Nat) (pending seen : List PackageName) (result : List (List RepoDataRecord))
      (processed : List PackageName) (res : List (List RepoDataRecord))
      (seenF procF : List PackageName),
      lrrGo repos patch_function fuel pending seen result processed =
        some (.ok (res, seenF, procF)) →
      (processed ++ pending).Nodup →
      (∀ x ∈ processed ++ pending, x ∈ seen) →
      (∀ rs ∈ result, ∀ r ∈ rs, ∀ d ∈ r.package_record.depends, depName d ∈ seen) →
      procF.Nodup ∧
      (∀ rs ∈ res, ∀ r ∈ rs, ∀ d ∈ r.package_record.depends, depName d ∈ seenF)
  | fuel, [], seen, result, processed, res, seenF, procF => by
    intro h h1 h2 h3
    simp only [lrrGo, Option.some.injEq, Outcome.ok.injEq, Prod.mk.injEq] at h
    obtain ⟨rfl, rfl, rfl⟩ := h
    constructor
    · simpa using h1
    · exact h3
  | 0, p :: rest, seen, result, processed, res, seenF, procF => by
    intro h h1 h2 h3
    simp [lrrGo] at h
  | fuel + 1, p :: rest, seen, result, processed, res, seenF, procF => by
    intro h h1 h2 h3
    simp only [lrrGo] at h
    cases hr : lrrRepos patch_function p repos seen rest with
    | err e => rw [hr] at h; simp at h
    | fatal m => rw [hr] at h; simp at h
    | ok tr =>
      rw [hr] at h
      obtain ⟨newRecords, seen2, pending2⟩ := tr
      simp only [] at h
      rw [List.append_cons] at h1 h2
      have hinv := lrrRepos_inv patch_function p (processed ++ [p]) repos seen rest
        (newRecords, seen2, pending2) hr h1 h2
      refine lrrGo_inv repos patch_function fuel pending2 seen2
        (List.zipWith (fun a b => a ++ b) result newRecords) (processed ++ [p])
        res seenF procF h hinv.1.1 hinv.1.2 ?_
      intro rs hrs r hrrec d hd
      obtain ⟨a, ha, b, hb, rfl⟩ := mem_zipWith_append result newRecords rs hrs
      rcases List.mem_append.mp hrrec with hm | hm
      · exact hinv.2.1 _ (h3 a ha r hm d hd)
      · exact hinv.2.2 b hb r hm d hd

theorem dropWhile_head_not (p : Char → Bool) :
    ∀ (l : List Char) (x : Char) (xs : List Char), l.dropWhile p = x :: xs → p x = false
  | [], x, xs, h => by simp at h
  | y :: ys, x, xs, h => by
    rw [List.dropWhile_cons] at h
    by_cases hy : p y = true
    · rw [if_pos hy] at h
      exact dropWhile_head_not p ys x xs h
    · rw [if_neg hy] at h
      cases h
      simpa using hy

/-- C5: the dependency name of a depends string is the substring before the
first space — the whole string when there is no space — wrapped verbatim by
the unchecked constructor; during the traversal a name is enqueued and
added to `seen` exactly when it is not yet in `seen`, so the queue pops
each name at most once (the pop sequence is duplicate-free), and every
dependency of every materialized record has its extracted name in the
final `seen` set. -/
theorem c5_dependency_extraction (repos : List SparseRepoData)
    (patch_function : Option (PackageRecord → PackageRecord)) (roots : List PackageName)
    (fuel : Nat) (res : List (List RepoDataRecord)) (seenF procF : List PackageName)
    (h : lrrGo repos patch_function fuel (dedupFold roots) (dedupFold roots)
      (repos.map (fun _ => [])) [] = some (.ok (res, seenF, procF))) :
    procF.Nodup ∧
    (∀ rs ∈ res, ∀ r ∈ rs, ∀ d ∈ r.package_record.depends, depName d ∈ seenF) ∧
    (∀ d : String, ¬ ' ' ∈ (depName d).normalized.toList ∧
      ((depName d).normalized = d ∨
        ∃ rest, d.toList = (depName d).normalized.toList ++ ' ' :: rest)) := by
  have hnodup : (dedupFold roots).Nodup := dedupFold_aux_nodup roots [] List.nodup_nil
  have hmain := lrrGo_inv repos patch_function fuel (dedupFold roots) (dedupFold roots)
    (repos.map (fun _ => [])) [] res seenF procF h (by simpa using hnodup)
    (by intro x hx; simpa using hx)
    (by
      intro rs hrs
      obtain ⟨repo, _, rfl⟩ := List.mem_map.mp hrs
      intro r hrrec
      simp at hrrec)
  refine ⟨hmain.1, hmain.2, ?_⟩
  intro d
  constructor
  · intro hsp
    have hsp2 : ' ' ∈ d.toList.takeWhile (fun ch => ch != ' ') := hsp
    have := List.mem_takeWhile_imp hsp2
    simp at this
  · have hsplit := List.takeWhile_append_dropWhile (fun ch => ch != ' ') d.toList
    cases hdw : d.toList.dropWhile (fun ch => ch != ' ') with
    | nil =>
      left
      rw [hdw, List.append_nil] at hsplit
      show String.mk (d.toList.takeWhile (fun ch => ch != ' ')) = d
      rw [hsplit]
      rfl
    | cons x xs =>
      right
      have hx : (x != ' ') = false := dropWhile_head_not _ d.toList x xs hdw
      have hx2 : x = ' ' := by simpa using hx
      subst hx2
      refine ⟨xs, ?_⟩
      show d.toList = d.toList.takeWhile (fun ch => ch != ' ') ++ ' ' :: xs
      rw [← hdw]
      exact hsplit.symm

/-- Witness for C5: the traversal of the dependency-chain handle starting at
`a` pops `a` and then `b`, each once, and the extracted name of the
dependency string of `a` is in the final seen set. -/
theorem c5_dependency_extraction_witness :
    ([PackageName.new_unchecked "a", PackageName.new_unchecked "b"] :
      List PackageName).Nodup ∧
    depName "b >=1.0" ∈
      [PackageName.new_unchecked "a", PackageName.new_unchecked "b"] := by
  have h := c5_dependency_extraction [depChainHandle] none [PackageName.new_unchecked "a"] 3
    [[{ url := ⟨false, "https://example.org/channel/noarch/a-1-0.tar.bz2"⟩,
        channel := "example-channel",
        package_record := ⟨"a", "1", "0", "noarch", ["b >=1.0"]⟩,
        file_name := "a-1-0.tar.bz2" },
      { url := ⟨false, "https://example.org/channel/noarch/b-1-0.tar.bz2"⟩,
        channel := "example-channel",
        package_record := ⟨"b", "1", "0", "noarch", []⟩,
        file_name := "b-1-0.tar.bz2" }]]
    [PackageName.new_unchecked "a", PackageName.new_unchecked "b"]
    [PackageName.new_unchecked "a", PackageName.new_unchecked "b"] rfl
  refine ⟨h.1, ?_⟩
  refine h.2.1 _ (List.mem_singleton_self _)
    { url := ⟨false, "https://example.org/channel/noarch/a-1-0.tar.bz2"⟩,
      channel := "example-channel",
      package_record := ⟨"a", "1", "0", "noarch", ["b >=1.0"]⟩,
      file_name := "a-1-0.tar.bz2" } (by decide) "b >=1.0" (by decide)
